import Mathlib

set_option maxRecDepth 100000

/-!
Verification development for the `update_mds.py` script of the
passkey-aaguids repository.

The script is shallowly embedded below.  JSON values that the Python code
manipulates (after `json.loads` / `jwt.decode`) are modelled by the `Json`
inductive; Python dictionaries are ordered association lists, matching
CPython's insertion-order semantics.  Filesystem state is an explicit
record threaded through the materializer; `print` calls that depend on the
data being processed are modelled as structured log events.  Python
behaviours that can only raise an exception (for example calling `.get` on
a non-dict, which aborts the whole run) are modelled as the neutral result
at the failure point; every claim below is settled on inputs that do not
reach such a point.
-/

/-- A parsed JSON value (the result of `json.loads` / `jwt.decode`).
Object fields keep insertion order, like a Python `dict`. -/
inductive Json where
  | null : Json
  | bool : Bool → Json
  | num : Int → Json
  | str : String → Json
  | arr : List Json → Json
  | obj : List (String × Json) → Json

/-- Python truthiness (`bool(x)`) for the JSON values the script handles. -/
def Json.truthy : Json → Bool
  | .null => false
  | .bool b => b
  | .num n => n ≠ 0
  | .str s => s ≠ ""
  | .arr xs => !xs.isEmpty
  | .obj kvs => !kvs.isEmpty

/-- First value stored under a key in an ordered association list
(Python `dict` lookup; keys are unique in lists built by the script). -/
def alookup {α : Type} : List (String × α) → String → Option α
  | [], _ => none
  | (k, v) :: rest, key => if k = key then some v else alookup rest key

/-- Whether a key is present (Python `k in d`). -/
def akey {α : Type} (l : List (String × α)) (key : String) : Bool :=
  (alookup l key).isSome

/-- Python `d[k] = v`: overwrite in place if the key exists (keeping its
position, as CPython does), otherwise append. -/
def aset {α : Type} (l : List (String × α)) (key : String) (v : α) :
    List (String × α) :=
  if akey l key then
    l.map (fun kv => if kv.1 = key then (key, v) else kv)
  else
    l ++ [(key, v)]

/-- Python `d.get(k)`: the stored value, or `None` when absent.  A stored
JSON `null` and an absent key are indistinguishable to the script, exactly
as in Python. -/
def pyGet (kvs : List (String × Json)) (key : String) : Json :=
  (alookup kvs key).getD .null

/-- `Json.get`: `d.get(k)` on a value that may not be a dict; the script
only ever reaches `.get` on dicts in the runs analysed here. -/
def Json.get : Json → String → Json
  | .obj kvs, key => pyGet kvs key
  | _, _ => .null

/-- The single-quote character Python `repr` wraps strings in. -/
def squote : String := String.singleton (Char.ofNat 39)

mutual
/-- Python `repr` for the shapes produced by `json` parsing, used to model
`str(...)` on containers (reached only by `str(description)` fallbacks). -/
def pyRepr : Json → String
  | .null => "None"
  | .bool b => if b then "True" else "False"
  | .num n => toString n
  | .str s => squote ++ s ++ squote
  | .arr xs => "[" ++ String.intercalate ", " (pyReprList xs) ++ "]"
  | .obj kvs =>
      "\x7b" ++ String.intercalate ", " (pyReprKVs kvs) ++ "\x7d"
termination_by structural j => j

def pyReprList : List Json → List String
  | [] => []
  | j :: js => pyRepr j :: pyReprList js
termination_by structural l => l

def pyReprKVs : List (String × Json) → List String
  | [] => []
  | (k, v) :: rest => (squote ++ k ++ squote ++ ": " ++ pyRepr v) :: pyReprKVs rest
termination_by structural l => l
end

/-- Python `str(x)` on a JSON value. -/
def pyStr : Json → String
  | .str s => s
  | j => pyRepr j

/-- ASCII lowercasing of one character (`str.lower()` on the script's
ASCII identifier data). -/
def lowerChar (c : Char) : Char :=
  if 65 ≤ c.toNat ∧ c.toNat ≤ 90 then Char.ofNat (c.toNat + 32) else c

/-- `s.lower()` on the ASCII range the script's keys use. -/
def pyLower (s : String) : String :=
  String.mk (s.toList.map lowerChar)

/-- `s.replace('-', '')`: drop every hyphen. -/
def stripDashes (s : String) : String :=
  String.mk (s.toList.filter (fun c => if c = '-' then false else true))

/-- Lexicographic comparison by code point, Python's `<=` on strings. -/
def charsLe : List Char → List Char → Bool
  | [], _ => true
  | _ :: _, [] => false
  | a :: as, b :: bs => if a = b then charsLe as bs else decide (a.toNat < b.toNat)

def strLe (a b : String) : Bool := charsLe a.toList b.toList

/-- Stable insertion of one element into a list sorted by a string key
(places the element before the first strictly larger key, after equal
keys of earlier elements is impossible here because it is inserted last
among the already-sorted prefix). -/
def insortBy {α : Type} (key : α → String) (x : α) : List α → List α
  | [] => [x]
  | y :: ys => if strLe (key x) (key y) then x :: y :: ys else y :: insortBy key x ys

/-- Stable sort by a string key, modelling Python `sorted(..., key=...)`
(Python compares strings by code points, as Lean's `String` order does). -/
def sortBy {α : Type} (key : α → String) : List α → List α
  | [] => []
  | x :: xs => insortBy key x (sortBy key xs)

mutual
/-- Recursively sort all object keys, modelling `json.dumps(..., sort_keys=True)`
(the rendering phase below never reorders). -/
def sortJson : Json → Json
  | .null => .null
  | .bool b => .bool b
  | .num n => .num n
  | .str s => .str s
  | .arr xs => .arr (sortJsonList xs)
  | .obj kvs => .obj (sortBy Prod.fst (sortJsonKVs kvs))
termination_by structural j => j

def sortJsonList : List Json → List Json
  | [] => []
  | j :: js => sortJson j :: sortJsonList js
termination_by structural l => l

def sortJsonKVs : List (String × Json) → List (String × Json)
  | [] => []
  | (k, v) :: rest => (k, sortJson v) :: sortJsonKVs rest
termination_by structural l => l
end

def hexDigit (n : Nat) : Char :=
  if n < 10 then Char.ofNat (48 + n) else Char.ofNat (87 + n)

/-- `\u00XX` escape used by `json.dumps` for control characters. -/
def uEscape (n : Nat) : String :=
  "\\u00" ++ String.singleton (hexDigit (n / 16)) ++ String.singleton (hexDigit (n % 16))

/-- One character of a JSON string literal, as `json.dumps(..., ensure_ascii=False)`
emits it. -/
def escChar (c : Char) : String :=
  if c = '"' then "\\\""
  else if c = '\\' then "\\\\"
  else if c = '\n' then "\\n"
  else if c = '\t' then "\\t"
  else if c = '\r' then "\\r"
  else if c = Char.ofNat 8 then "\\b"
  else if c = Char.ofNat 12 then "\\f"
  else if c.toNat < 32 then uEscape c.toNat
  else String.singleton c

def encodeString (s : String) : String :=
  "\"" ++ String.join (s.toList.map escChar) ++ "\""

def pad (n : Nat) : String :=
  String.mk (List.replicate n ' ')

mutual
/-- Render a JSON value the way `json.dumps` does: `ind` is the `indent`
argument, `isep`/`ksep` the item and key separators, `lvl` the current
nesting depth. -/
def render (ind : Option Nat) (isep ksep : String) (lvl : Nat) : Json → String
  | .null => "null"
  | .bool b => if b then "true" else "false"
  | .num n => toString n
  | .str s => encodeString s
  | .arr xs =>
      match xs with
      | [] => "[]"
      | _ =>
        match ind with
        | none => "[" ++ String.intercalate isep (renderElems ind isep ksep lvl xs) ++ "]"
        | some w =>
            "[\n" ++ pad (w * (lvl + 1)) ++
              String.intercalate (isep ++ "\n" ++ pad (w * (lvl + 1)))
                (renderElems ind isep ksep (lvl + 1) xs) ++
              "\n" ++ pad (w * lvl) ++ "]"
  | .obj kvs =>
      match kvs with
      | [] => "\x7b\x7d"
      | _ =>
        match ind with
        | none =>
            "\x7b" ++ String.intercalate isep (renderKVs ind isep ksep lvl kvs) ++ "\x7d"
        | some w =>
            "\x7b\n" ++ pad (w * (lvl + 1)) ++
              String.intercalate (isep ++ "\n" ++ pad (w * (lvl + 1)))
                (renderKVs ind isep ksep (lvl + 1) kvs) ++
              "\n" ++ pad (w * lvl) ++ "\x7d"
termination_by structural j => j

def renderElems (ind : Option Nat) (isep ksep : String) (lvl : Nat) :
    List Json → List String
  | [] => []
  | j :: js => render ind isep ksep lvl j :: renderElems ind isep ksep lvl js
termination_by structural l => l

def renderKVs (ind : Option Nat) (isep ksep : String) (lvl : Nat) :
    List (String × Json) → List String
  | [] => []
  | (k, v) :: rest =>
      (encodeString k ++ ksep ++ render ind isep ksep lvl v) ::
        renderKVs ind isep ksep lvl rest
termination_by structural l => l
end

/-- `json.dumps(x, ensure_ascii=False, indent=2, sort_keys=True)`. -/
def dumpsSortedIndent2 (j : Json) : String :=
  render (some 2) "," ": " 0 (sortJson j)

/-- `json.dumps(x, ensure_ascii=False, indent=2)` (no key sorting). -/
def dumpsIndent2 (j : Json) : String :=
  render (some 2) "," ": " 0 j

/-- `json.dumps(x, ensure_ascii=False, separators=(',', ':'))`. -/
def dumpsCompact (j : Json) : String :=
  render none "," ":" 0 j

/-- `json.dumps(x, ensure_ascii=False)` with default separators. -/
def dumpsDefault (j : Json) : String :=
  render none ", " ": " 0 j

/-- The characters matched by Python's `\s` (and stripped by `str.strip()`)
for the ASCII range the script's data uses. -/
def isPySpace (c : Char) : Bool :=
  c = ' ' || c = '\t' || c = '\n' || c = '\r' || c = Char.ofNat 11 || c = Char.ofNat 12

/-- `re.sub(r"\s+", " ", s)`: every maximal whitespace run becomes a single
space.  `prevSpace` records whether the previous character belonged to a
run that already emitted its space. -/
def collapseWs (prevSpace : Bool) : List Char → List Char
  | [] => []
  | c :: cs =>
      if isPySpace c then
        if prevSpace then collapseWs true cs
        else ' ' :: collapseWs true cs
      else c :: collapseWs false cs

/-- Remove trailing whitespace (the right half of `str.strip()`). -/
def rstripWs : List Char → List Char
  | [] => []
  | c :: cs =>
      let r := rstripWs cs
      if r.isEmpty && isPySpace c then [] else c :: r

/-- `str.strip()`: drop leading and trailing whitespace. -/
def stripEnds (cs : List Char) : List Char :=
  rstripWs (cs.dropWhile isPySpace)

/-- The string-level core of `_normalize_single_line`:
`re.sub(r"\s+", " ", str(text)).strip()`. -/
def normStr (s : String) : String :=
  String.mk (stripEnds (collapseWs false s.toList))

/-- `_normalize_single_line(text)`: `None` stays `None` (a JSON `null`
models Python `None`), anything else is stringified and collapsed. -/
def normalize_single_line : Json → Option String
  | .null => none
  | j => some (normStr (pyStr j))

/-- `_format_for_log(text, max_len=140)`: preview used in dry-run logging.
Python slicing is by code points, modelled on the character list. -/
def format_for_log (text : Option String) : String :=
  match text with
  | none => "None"
  | some t =>
      let s := match normalize_single_line (.str t) with
        | some s => s
        | none => ""
      if s.toList.length > 140 then String.mk (s.toList.take 137) ++ "..." else s

/-- The preferred-locale scan of `_friendly_name_from_entry`:
`for lang in ('en-US', 'en', 'en-GB'): v = fn.get(lang); if v: return ...`. -/
def friendlyFromLocales (fnkvs : List (String × Json)) : List String → Option Json
  | [] => none
  | lang :: rest =>
      let v := pyGet fnkvs lang
      if v.truthy then some v else friendlyFromLocales fnkvs rest

/-- The deterministic fallback scan:
`for _, v in sorted(fn.items(), key=...): if v: return ...`. -/
def firstTruthyValue : List (String × Json) → Option Json
  | [] => none
  | (_, v) :: rest => if v.truthy then some v else firstTruthyValue rest

/-- `_friendly_name_from_entry(entry)`. -/
def friendly_name_from_entry (entry : Option Json) : Option String :=
  match entry with
  | some (.obj kvs) =>
      let plain :=
        let v :=
          let fnv := pyGet kvs "friendlyName"
          if fnv.truthy then fnv else pyGet kvs "name"
        if v.truthy then
          match normalize_single_line v with
          | some s => some s
          | none => none
        else none
      match alookup kvs "friendlyNames" with
      | some (.obj fnkvs) =>
          if !fnkvs.isEmpty then
            match friendlyFromLocales fnkvs ["en-US", "en", "en-GB"] with
            | some v => normalize_single_line v
            | none =>
              match firstTruthyValue (sortBy Prod.fst fnkvs) with
              | some v => normalize_single_line v
              | none => plain
          else plain
      | _ => plain
  | _ => none

/-- Whether a Python value holding an optional mapping is truthy
(`if combined_map:` on `None` or an empty dict is false). -/
def mapTruthy {α : Type} : Option (List (String × α)) → Bool
  | none => false
  | some m => !m.isEmpty

/-- `lookup_normalized(mapping, aaguid)`. -/
def lookup_normalized (mapping : Option (List (String × Json))) (aaguid : String) :
    Option Json :=
  match mapping with
  | none => none
  | some m =>
      if m.isEmpty || aaguid = "" then none
      else
        let a := pyLower aaguid
        match alookup m a with
        | some v => some v
        | none => alookup m (stripDashes a)

/-- One MDS entry's contribution to an AAGUID, as built by
`extract_aaguids` (and synthesised by the placeholder logic): the Python
dict `{'name', 'description', 'metadataStatement', 'mds_entry'}`. -/
structure MetaItem where
  name : String
  description : Json
  metadataStatement : Json
  mds_entry : Json

/-- The item dict in its insertion order, for `json.dumps` of `metadata.json`. -/
def MetaItem.toJson (it : MetaItem) : Json :=
  .obj [("name", .str it.name), ("description", it.description),
        ("metadataStatement", it.metadataStatement), ("mds_entry", it.mds_entry)]

/-- The guarded lookup `lookup_normalized(m, aaguid) if m else None` used
for both secondary maps. -/
def entryFor (m : Option (List (String × Json))) (aaguid : String) : Option Json :=
  if mapTruthy m then lookup_normalized m aaguid else none

/-- `_choose_name_for_aaguid(aaguid, items, combined_map, c_mds_map)`. -/
def choose_name_for_aaguid (aaguid : String) (items : List MetaItem)
    (combined_map c_mds_map : Option (List (String × Json))) : String :=
  let first_name : String := match items with
    | [] => "Unknown"
    | it :: _ => it.name
  let combined_entry := entryFor combined_map aaguid
  let c_mds_entry := entryFor c_mds_map aaguid
  let fromCMds : Json :=
    match friendly_name_from_entry c_mds_entry with
    | some c_name => if c_name ≠ "" then .str c_name else .str first_name
    | none => .str first_name
  let new_name : Json :=
    match combined_entry with
    | some (.obj kvs) =>
        let ce_name := pyGet kvs "name"
        if ce_name.truthy then ce_name else fromCMds
    | _ => fromCMds
  match normalize_single_line new_name with
  | some s => s
  | none => "Unknown"

/-- The value normalisation of the `icon.txt` scan (lines 358-374 of the
script): a non-empty list contributes its first element, a dict is
serialised to compact JSON, and the result is stringified with
`json.dumps` when it is not already a string. -/
def iconValue (v : Json) : String :=
  let val : Json :=
    match v with
    | .arr (x :: _) => x
    | .obj kvs => .str (dumpsCompact (.obj kvs))
    | other => other
  match val with
  | .str s => s
  | j => dumpsDefault j

/-- The inner loop of the icon scan: first field of a metadata statement
whose key lowercases to `"icon"` (the script's `canonical_icon_keys`). -/
def iconFromStatement : List (String × Json) → Option String
  | [] => none
  | (k, v) :: rest =>
      if pyLower k = "icon" then some (iconValue v) else iconFromStatement rest

/-- The outer loop: first item whose metadata statement yields an icon.
`item.get('metadataStatement', {}) or {}` is a dict for every item the
script builds, so non-dict statements contribute nothing. -/
def iconFromItems : List MetaItem → Option String
  | [] => none
  | item :: rest =>
      let fields := match item.metadataStatement with
        | .obj kvs => kvs
        | _ => []
      match iconFromStatement fields with
      | some s => some s
      | none => iconFromItems rest

/-- The full `icon.txt` precedence (lines 345-379): the c-MDS entry's
truthy `icon` field stringified, else the metadata-statement scan. -/
def first_icon_value (items : List MetaItem) (c_mds_entry : Option Json) :
    Option String :=
  let primary : Option String :=
    match c_mds_entry with
    | some (.obj kvs) =>
        let ci := pyGet kvs "icon"
        if ci.truthy then some (pyStr ci) else none
    | _ => none
  match primary with
  | some s => some s
  | none => iconFromItems items

/-- `extract_aaguids(mds_data)`: walk `entries`, group metadata statements
by AAGUID (insertion order preserved, duplicates kept).  Entries whose
statement lacks a truthy `aaguid` are skipped; a non-string `aaguid` or a
non-dict entry/statement would crash the Python run later and never occurs
in MDS data, so such entries contribute nothing here. -/
def appendItem (acc : List (String × List MetaItem)) (a : String) (it : MetaItem) :
    List (String × List MetaItem) :=
  if akey acc a then
    acc.map (fun kv => if kv.1 = a then (kv.1, kv.2 ++ [it]) else kv)
  else
    acc ++ [(a, [it])]

def extract_aaguids (mds_data : Json) : List (String × List MetaItem) :=
  let entries := match mds_data.get "entries" with
    | .arr es => es
    | _ => []
  entries.foldl
    (fun acc entry =>
      match entry with
      | .obj ekvs =>
          match (alookup ekvs "metadataStatement").getD (.obj []) with
          | .obj mkvs =>
              match pyGet mkvs "aaguid" with
              | .str a =>
                  if a ≠ "" then
                    let description := (alookup mkvs "description").getD (.str "Unknown")
                    let name : String :=
                      match description with
                      | .obj dkvs =>
                          pyStr ((alookup dkvs "en").getD
                            ((alookup dkvs "english").getD (.str (pyRepr (.obj dkvs)))))
                      | d => pyStr d
                    appendItem acc a ⟨name, description, .obj mkvs, entry⟩
                  else acc
              | _ => acc
          | _ => acc
      | _ => acc)
    []

/-- `add_key(k, v)` of `parse_combined_map`: skip falsy keys, store under
the lowercased key and additionally under its hyphen-less form. -/
def add_key (acc : List (String × Json)) (k : Json) (v : Json) :
    List (String × Json) :=
  if !k.truthy then acc
  else
    let k1 := pyLower (pyStr k)
    let acc := aset acc k1 v
    let k2 := stripDashes k1
    if k2 ≠ k1 then aset acc k2 v else acc

/-- `parse_combined_map(raw_text)` after `json.loads`: `none` models both a
falsy `raw_text` and a parse failure; a top-level dict is keyed by AAGUID,
a top-level list is scanned for identifier fields. -/
def parse_combined_map : Option Json → Option (List (String × Json))
  | none => none
  | some (.obj kvs) =>
      some (kvs.foldl (fun acc kv => add_key acc (.str kv.1) kv.2) [])
  | some (.arr es) =>
      some (es.foldl
        (fun acc e =>
          match e with
          | .obj ekvs =>
              let k :=
                let a := pyGet ekvs "aaguid"
                if a.truthy then a else
                let b := pyGet ekvs "AAGUID"
                if b.truthy then b else
                let c := pyGet ekvs "id"
                if c.truthy then c else pyGet ekvs "idHex"
              if k.truthy then add_key acc k e else acc
          | _ => acc)
        [])
  | some _ => none

/-- `parse_c_mds_map` delegates to the combined parser. -/
def parse_c_mds_map (raw : Option Json) : Option (List (String × Json)) :=
  parse_combined_map raw

/-- Re-insert hyphens at positions 8/12/16/20 (`f"{s[0:8]}-{s[8:12]}-..."`). -/
def hyphenate (s : String) : String :=
  let cs := s.toList
  String.mk (cs.take 8) ++ "-" ++ String.mk ((cs.drop 8).take 4) ++ "-" ++
    String.mk ((cs.drop 12).take 4) ++ "-" ++ String.mk ((cs.drop 16).take 4) ++
    "-" ++ String.mk ((cs.drop 20).take 12)

/-- The identifier-field chain of `ensure_placeholders`:
`entry.get('aaguid') or entry.get('AAGUID') or entry.get('id') or entry.get('idHex')`
on a dict entry, `None` otherwise. -/
def identifierOf : Json → Json
  | .obj ekvs =>
      let a := pyGet ekvs "aaguid"
      if a.truthy then a else
      let b := pyGet ekvs "AAGUID"
      if b.truthy then b else
      let c := pyGet ekvs "id"
      if c.truthy then c else pyGet ekvs "idHex"
  | _ => .null

/-- The canonical-AAGUID reconstruction of `ensure_placeholders`: explicit
identifier field, else hyphenation of keys of length exactly 32, else the
raw key. -/
def canonicalFor (ck : String) (entry : Json) : String :=
  let ident := identifierOf entry
  if ident.truthy then pyStr ident
  else if ck.toList.length = 32 then hyphenate ck
  else ck

/-- The placeholder item synthesised for an AAGUID absent from MDS. -/
def placeholderItem (canonical : String) (entry : Json) (nameOf : Json → Json) :
    MetaItem :=
  let pname : String :=
    match normalize_single_line (nameOf entry) with
    | some s => if s ≠ "" then s else canonical
    | none => canonical
  let descr : Json :=
    match entry with
    | .obj ekvs => pyGet ekvs "description"
    | _ => .str ""
  ⟨pname, descr, .obj [], .obj []⟩

/-- `ensure_placeholders(external_map, name_fn)` from `main` (lines
528-552): `mdsKeys` is the precomputed `normalized_mds_keys` set. -/
def ensure_placeholders (acc : List (String × List MetaItem))
    (mdsKeys : List String) (external_map : Option (List (String × Json)))
    (nameOf : Json → Json) : List (String × List MetaItem) :=
  match external_map with
  | none => acc
  | some m =>
      if m.isEmpty then acc
      else
        m.foldl
          (fun acc ckentry =>
            let ck := ckentry.1
            let entry := ckentry.2
            if ck ∈ mdsKeys then acc
            else
              let canonical := canonicalFor ck entry
              if akey acc canonical then acc
              else acc ++ [(canonical, [placeholderItem canonical entry nameOf])])
          acc

/-- `name_fn` for the combined map: `e.get('name') if isinstance(e, dict) else None`. -/
def combinedNameOf : Json → Json
  | .obj ekvs => pyGet ekvs "name"
  | _ => .null

/-- `name_fn` for the c-MDS map: `_friendly_name_from_entry`, reified as a
Python value (`None` when it returns `None`). -/
def cMdsNameOf (e : Json) : Json :=
  match friendly_name_from_entry (some e) with
  | some s => .str s
  | none => .null

/-- `normalized_mds_keys` (lines 521-526). -/
def normalizedMdsKeys (data : List (String × List MetaItem)) : List String :=
  data.foldl
    (fun acc kv =>
      let k := pyLower kv.1
      let acc := if k ∈ acc then acc else acc ++ [k]
      let k2 := stripDashes k
      if k2 ∈ acc then acc else acc ++ [k2])
    []

/-- A path the script touches: `<base>/<aaguid>/<fname>` or `<base>/<fname>`. -/
inductive FPath where
  | sub : String → String → FPath
  | top : String → FPath
deriving DecidableEq

/-- One file on disk.  `readFails` / `deleteFails` model the environment
raising `OSError` from `read_text()` / `unlink()` on this file (the
script catches both). -/
structure FileNode where
  content : String
  readFails : Bool := false
  deleteFails : Bool := false
deriving DecidableEq

/-- The filesystem state the materializer manipulates. -/
structure FS where
  baseDir : Bool := false
  dirs : List String := []
  files : List (FPath × FileNode) := []
deriving DecidableEq

def plookup : List (FPath × FileNode) → FPath → Option FileNode
  | [], _ => none
  | (k, v) :: rest, key => if k = key then some v else plookup rest key

def pset : List (FPath × FileNode) → FPath → FileNode → List (FPath × FileNode)
  | [], key, v => [(key, v)]
  | kv :: rest, key, v =>
      if kv.1 = key then (key, v) :: rest else kv :: pset rest key v

def premove : List (FPath × FileNode) → FPath → List (FPath × FileNode)
  | [], _ => []
  | kv :: rest, key =>
      if kv.1 = key then premove rest key else kv :: premove rest key

/-- `file.exists()`. -/
def FS.exists? (fs : FS) (p : FPath) : Bool :=
  (plookup fs.files p).isSome

/-- The combined existence check and guarded `read_text()` the script uses
before each write: `some c` when the file exists and reads successfully,
`none` when it is absent or the read raises (both give `old = None`). -/
def FS.readOld (fs : FS) (p : FPath) : Option String :=
  match plookup fs.files p with
  | some nd => if nd.readFails then none else some nd.content
  | none => none

def FS.write (fs : FS) (p : FPath) (s : String) : FS :=
  { fs with files := pset fs.files p ⟨s, false, false⟩ }

def FS.remove (fs : FS) (p : FPath) : FS :=
  { fs with files := premove fs.files p }

/-- `aaguid_dir.mkdir(exist_ok=True)`. -/
def FS.mkdirSub (fs : FS) (a : String) : FS :=
  if a ∈ fs.dirs then fs else { fs with dirs := fs.dirs ++ [a] }

/-- Structured log records for the data-dependent `print` calls of the
materializer (unconditional progress prints carry no decision and are not
modelled). -/
inductive LogEvent where
  | wouldUpdateName : FPath → Nat → Nat → String → String → LogEvent
  | wouldWrite : FPath → Nat → LogEvent
  | wouldUpdateTop : FPath → Nat → LogEvent
  | removedStale : FPath → LogEvent
  | processed : String → String → LogEvent
deriving DecidableEq

/-- Result of a slice of the materializer: new filesystem, log events, the
files written, the files deleted. -/
structure WRes where
  fs : FS
  logs : List LogEvent
  writes : List FPath
  deletes : List FPath

/-- The content-equality write rule used for every file: read the existing
content (absent/unreadable gives `None`), write only when different, log
instead of writing in dry-run mode. -/
def writeIfChanged (fs : FS) (p : FPath) (new : String) (dry : Bool)
    (mkEv : Option String → String → LogEvent) : WRes :=
  let old := fs.readOld p
  if old = some new then ⟨fs, [], [], []⟩
  else if dry then ⟨fs, [mkEv old new], [], []⟩
  else ⟨fs.write p new, [], [p], []⟩

/-- The stale-file cleanup used for `icon.txt`, `c_mds.json`,
`icon_light.txt`, `icon_dark.txt`:
`if f.exists() and not dry_run: try: f.unlink(); print(...) except: pass`. -/
def deleteIfExists (fs : FS) (p : FPath) (dry : Bool) : WRes :=
  if fs.exists? p && !dry then
    match plookup fs.files p with
    | some nd =>
        if nd.deleteFails then ⟨fs, [], [], []⟩
        else ⟨fs.remove p, [.removedStale p], [], [p]⟩
    | none => ⟨fs, [], [], []⟩
  else ⟨fs, [], [], []⟩

def namePath (a : String) : FPath := .sub a "name.txt"
def metadataPath (a : String) : FPath := .sub a "metadata.json"
def iconPath (a : String) : FPath := .sub a "icon.txt"
def cMdsPath (a : String) : FPath := .sub a "c_mds.json"
def iconLightPath (a : String) : FPath := .sub a "icon_light.txt"
def iconDarkPath (a : String) : FPath := .sub a "icon_dark.txt"

/-- What the loop body decides to do with one managed file: leave it
alone, delete it when stale, or bring it to content `s`. -/
inductive FileDecision where
  | skip : FileDecision
  | del : FileDecision
  | put : String → FileDecision

/-- The dry-run log record for a write to `<aaguid>/<fname>`: `name.txt`
uses the before/after preview format, every other file the size format. -/
def evFor (a fname : String) : Option String → String → LogEvent :=
  if fname = "name.txt" then
    fun old new => .wouldUpdateName (namePath a)
      ((old.map (fun o => o.toList.length)).getD 0)
      new.toList.length (format_for_log old) (format_for_log (some new))
  else fun _ new => .wouldWrite (.sub a fname) new.toList.length

/-- Apply one decision through the content-equality rule / stale cleanup. -/
def fileStep (a : String) (dry : Bool) (fs : FS) (fd : String × FileDecision) : WRes :=
  match fd.2 with
  | .skip => ⟨fs, [], [], []⟩
  | .del => deleteIfExists fs (.sub a fd.1) dry
  | .put s => writeIfChanged fs (.sub a fd.1) s dry (evFor a fd.1)

/-- Run the decisions in order, threading the filesystem and concatenating
logs, writes and deletes (the order the Python loop body uses). -/
def runSteps (a : String) (dry : Bool) : FS → List (String × FileDecision) → WRes
  | fs, [] => ⟨fs, [], [], []⟩
  | fs, fd :: rest =>
      let r := fileStep a dry fs fd
      let r2 := runSteps a dry r.fs rest
      ⟨r2.fs, r.logs ++ r2.logs, r.writes ++ r2.writes, r.deletes ++ r2.deletes⟩

/-- The six per-file decisions of the loop body (lines 280-476), in source
order.  `icon_light.txt`/`icon_dark.txt` are decided only inside
`if combined_entry:`; with no (or a falsy) combined entry nothing at all
happens to them. -/
def decisionsFor (aaguid : String) (items : List MetaItem)
    (combined_map c_mds_map : Option (List (String × Json))) :
    List (String × FileDecision) :=
  let combined_entry := entryFor combined_map aaguid
  let c_mds_entry := entryFor c_mds_map aaguid
  [("name.txt", .put (choose_name_for_aaguid aaguid items combined_map c_mds_map)),
   ("metadata.json", .put (dumpsSortedIndent2 (.arr (items.map MetaItem.toJson)))),
   ("icon.txt",
     match first_icon_value items c_mds_entry with
     | some v => .put v
     | none => .del),
   ("c_mds.json",
     match c_mds_entry with
     | some (.obj kvs) =>
         if !kvs.isEmpty then .put (dumpsSortedIndent2 (.obj kvs)) else .del
     | _ => .del),
   ("icon_light.txt",
     match combined_entry with
     | some ce =>
         if ce.truthy then
           if (ce.get "icon_light").truthy then .put (pyStr (ce.get "icon_light"))
           else .del
         else .skip
     | none => .skip),
   ("icon_dark.txt",
     match combined_entry with
     | some ce =>
         if ce.truthy then
           if (ce.get "icon_dark").truthy then .put (pyStr (ce.get "icon_dark"))
           else .del
         else .skip
     | none => .skip)]

/-- The body of the per-AAGUID loop of `create_aaguid_directories`
(lines 272-476), excluding the created/updated counting done by the
caller: `mkdir` the AAGUID directory, then apply the six file rules. -/
def processAaguid (fs0 : FS) (aaguid : String) (items : List MetaItem)
    (combined_map c_mds_map : Option (List (String × Json))) (dry : Bool) : WRes :=
  runSteps aaguid dry (fs0.mkdirSub aaguid)
    (decisionsFor aaguid items combined_map c_mds_map)

/-- The per-AAGUID loop with the created/updated counters (the existence
test runs before the `mkdir`). -/
def processAll (fs : FS) (data : List (String × List MetaItem))
    (combined_map c_mds_map : Option (List (String × Json))) (dry : Bool) :
    WRes × Nat × Nat :=
  match data with
  | [] => (⟨fs, [], [], []⟩, 0, 0)
  | (a, items) :: rest =>
      let existed := a ∈ fs.dirs
      let r := processAaguid fs a items combined_map c_mds_map dry
      let (r2, c, u) := processAll r.fs rest combined_map c_mds_map dry
      (⟨r2.fs, r.logs ++ r2.logs, r.writes ++ r2.writes, r.deletes ++ r2.deletes⟩,
       (if existed then 0 else 1) + c,
       (if existed then 1 else 0) + u)

/-- `create_aaguid_directories(aaguid_data, base_path, dry_run, ...)`:
base `mkdir`, the per-AAGUID loop, and the trailing `Processed AAGUID`
print, which sits after the loop and refers to the last iteration's
variables (an empty `aaguid_data` would raise `NameError` there; every
run analysed below processes at least one AAGUID). -/
def tailLog (data : List (String × List MetaItem))
    (combined_map c_mds_map : Option (List (String × Json))) : List LogEvent :=
  match data.getLast? with
  | some (a, items) =>
      [.processed a (format_for_log
        (some (choose_name_for_aaguid a items combined_map c_mds_map)))]
  | none => []

def create_aaguid_directories (fs : FS) (data : List (String × List MetaItem))
    (combined_map c_mds_map : Option (List (String × Json))) (dry : Bool) :
    WRes × Nat × Nat :=
  let fs := { fs with baseDir := true }
  let (r, c, u) := processAll fs data combined_map c_mds_map dry
  (⟨r.fs, r.logs ++ tailLog data combined_map c_mds_map, r.writes, r.deletes⟩, c, u)

/-- The AAGUID map `main` materializes: MDS extraction plus the
placeholder union of lines 520-556. -/
def mainData (mds_data : Json) (combined_json c_mds_json : Option Json) :
    List (String × List MetaItem) :=
  let aaguid_data0 := extract_aaguids mds_data
  let combined_map := parse_combined_map combined_json
  let c_mds_map := parse_c_mds_map c_mds_json
  if mapTruthy combined_map || mapTruthy c_mds_map then
    let mdsKeys := normalizedMdsKeys aaguid_data0
    let d1 := ensure_placeholders aaguid_data0 mdsKeys combined_map combinedNameOf
    ensure_placeholders d1 mdsKeys c_mds_map cMdsNameOf
  else aaguid_data0

/-- The `mds_summary.json` content for one run (lines 569-578). -/
def summaryContent (total created updated : Nat) (now : String) : String :=
  dumpsSortedIndent2 (.obj
    [("total_aaguids", .num total),
     ("created_directories", .num created),
     ("updated_directories", .num updated),
     ("last_updated", .str now)])

/-- The `aaguids.json` content for one run (lines 595-605): `{aaguid, name}`
pairs sorted by the lowercased AAGUID, names resolved through the same
precedence as `name.txt`. -/
def namesContent (data : List (String × List MetaItem))
    (combined_map c_mds_map : Option (List (String × Json))) : String :=
  dumpsIndent2 (.arr
    ((sortBy (fun kv => pyLower kv.1) data).map
      (fun kv => Json.obj
        [("aaguid", .str kv.1),
         ("name", .str (choose_name_for_aaguid kv.1 kv.2 combined_map c_mds_map))])))

/-- The merge-and-materialize portion of `main` (lines 499-619), starting
from the parsed MDS claims and the two parsed secondary payloads.  `now`
is `datetime.now(timezone.utc).isoformat()` for this run. -/
def runMain (mds_data : Json) (combined_json c_mds_json : Option Json)
    (fs : FS) (now : String) (dry : Bool) : WRes :=
  let combined_map := parse_combined_map combined_json
  let c_mds_map := parse_c_mds_map c_mds_json
  let data := mainData mds_data combined_json c_mds_json
  let (r, created, updated) := create_aaguid_directories fs data combined_map c_mds_map dry
  let rs := writeIfChanged r.fs (.top "mds_summary.json")
    (summaryContent data.length created updated now)
    dry (fun _ _ => .wouldUpdateTop (.top "mds_summary.json") data.length)
  let rn := writeIfChanged rs.fs (.top "aaguids.json")
    (namesContent data combined_map c_mds_map)
    dry (fun _ _ => .wouldUpdateTop (.top "aaguids.json") data.length)
  ⟨rn.fs, r.logs ++ rs.logs ++ rn.logs, r.writes ++ rs.writes ++ rn.writes,
   r.deletes ++ rs.deletes ++ rn.deletes⟩

/-- What one HTTP attempt inside `_http_get` can observe: a 429 response
carrying an optional `Retry-After` header, any other failure
(`raise_for_status` or a network exception, tagged by an id), or success. -/
inductive AttemptOutcome where
  | status429 : Option String → AttemptOutcome
  | httpError : Nat → AttemptOutcome
  | success : String → AttemptOutcome

def AttemptOutcome.isSuccess : AttemptOutcome → Bool
  | .success _ => true
  | _ => false

def digitsVal (ds : List Char) : Nat :=
  ds.foldl (fun n c => n * 10 + (c.toNat - 48)) 0

/-- Python `int(s)` on a header string: optional surrounding whitespace,
optional sign, decimal digits; `none` when it raises `ValueError`. -/
def pyInt (s : String) : Option Int :=
  let t := ((s.toList.dropWhile isPySpace).reverse.dropWhile isPySpace).reverse
  match t with
  | [] => none
  | c :: rest =>
      let ds := if c = '-' || c = '+' then rest else c :: rest
      if !ds.isEmpty && ds.all Char.isDigit then
        some (if c = '-' then -(digitsVal ds : Int) else (digitsVal ds : Int))
      else none

/-- `int(retry_after) if retry_after else 0` with the `except: wait_s = 0`
fallback. -/
def retryAfterWait (ra : Option String) : Int :=
  match ra with
  | none => 0
  | some s => if s = "" then 0 else (pyInt s).getD 0

/-- `min(60, 2 ** (attempt - 1))`. -/
def backoff (attempt : Nat) : Int :=
  min 60 ((2 : Int) ^ (attempt - 1))

/-- The retry loop of `_http_get`: `fuel` counts the attempts still
allowed, `attempt` is the 1-based attempt number, `lastExc` is the
`last_exc` variable.  Returns the sleep durations performed (in order) and
either the response body or the re-raised `last_exc` (`error none` models
`raise None`, which is how the code ends when every attempt returned 429
and no exception was ever stored). -/
def http_get_loop (o : Nat → AttemptOutcome) (maxAttempts : Nat) :
    Nat → Nat → Option Nat → List Int × Except (Option Nat) String
  | 0, _, lastExc => ([], .error lastExc)
  | fuel + 1, attempt, lastExc =>
      match o attempt with
      | .success body => ([], .ok body)
      | .status429 ra =>
          let wait := max (retryAfterWait ra) (backoff attempt)
          let rest := http_get_loop o maxAttempts fuel (attempt + 1) lastExc
          (wait :: rest.1, rest.2)
      | .httpError e =>
          if attempt ≥ maxAttempts then ([], .error (some e))
          else
            let rest := http_get_loop o maxAttempts fuel (attempt + 1) (some e)
            (backoff attempt :: rest.1, rest.2)

/-- `_http_get(url)` with the default `max_attempts=5`, driven by the
outcome of each attempt. -/
def http_get (o : Nat → AttemptOutcome) : List Int × Except (Option Nat) String :=
  http_get_loop o 5 5 1 none

/-- The value of `last_exc` after running attempts
`attempt, ..., attempt+fuel-1` starting from `base`, assuming none of them
succeeded. -/
def lastExcFrom (o : Nat → AttemptOutcome) (base : Option Nat) (attempt : Nat) :
    Nat → Option Nat
  | 0 => base
  | fuel + 1 =>
      lastExcFrom o
        (match o attempt with | .httpError e => some e | _ => base)
        (attempt + 1) fuel

/-! ### Basic lemmas about the filesystem primitives -/

theorem plookup_pset_self (l : List (FPath × FileNode)) (p : FPath) (v : FileNode) :
    plookup (pset l p v) p = some v := by
  induction l with
  | nil => simp [pset, plookup]
  | cons kv rest ih =>
      obtain ⟨k, w⟩ := kv
      simp only [pset]
      by_cases hk : k = p
      · rw [if_pos hk]
        simp [plookup]
      · rw [if_neg hk]
        simp only [plookup, if_neg hk]
        exact ih

theorem plookup_pset_other {l : List (FPath × FileNode)} {p q : FPath}
    (v : FileNode) (h : q ≠ p) : plookup (pset l p v) q = plookup l q := by
  induction l with
  | nil => simp [pset, plookup, if_neg (fun hq : p = q => h hq.symm)]
  | cons kv rest ih =>
      obtain ⟨k, w⟩ := kv
      simp only [pset]
      by_cases hk : k = p
      · rw [if_pos hk]
        simp only [plookup, if_neg (fun hq : p = q => h hq.symm),
          if_neg (fun hq : k = q => h ((hk ▸ hq : p = q)).symm)]
      · rw [if_neg hk]
        by_cases hkq : k = q
        · subst hkq
          simp [plookup]
        · simp only [plookup, if_neg hkq]
          exact ih

theorem plookup_premove_self (l : List (FPath × FileNode)) (p : FPath) :
    plookup (premove l p) p = none := by
  induction l with
  | nil => simp [premove, plookup]
  | cons kv rest ih =>
      obtain ⟨k, w⟩ := kv
      simp only [premove]
      by_cases hk : k = p
      · rw [if_pos hk]
        exact ih
      · rw [if_neg hk]
        simp only [plookup, if_neg hk]
        exact ih

theorem plookup_premove_other {l : List (FPath × FileNode)} {p q : FPath}
    (h : q ≠ p) : plookup (premove l p) q = plookup l q := by
  induction l with
  | nil => rfl
  | cons kv rest ih =>
      obtain ⟨k, w⟩ := kv
      simp only [premove]
      by_cases hk : k = p
      · rw [if_pos hk]
        rw [show plookup ((k, w) :: rest) q = plookup rest q by
          simp only [plookup, if_neg (fun hq : k = q => h ((hk ▸ hq : p = q)).symm)]]
        exact ih
      · rw [if_neg hk]
        by_cases hkq : k = q
        · simp [plookup, hkq]
        · simp only [plookup, if_neg hkq]
          exact ih

/-- A stale file is taken care of at `p`: it is absent, or the environment
refuses to delete it (in which case the script's `except: pass` leaves it). -/
def staleOk (fs : FS) (p : FPath) : Bool :=
  match plookup fs.files p with
  | none => true
  | some nd => nd.deleteFails

theorem readOld_write_self (fs : FS) (p : FPath) (s : String) :
    (fs.write p s).readOld p = some s := by
  simp [FS.write, FS.readOld, plookup_pset_self]

theorem files_write_other {fs : FS} {p q : FPath} (s : String) (h : q ≠ p) :
    plookup (fs.write p s).files q = plookup fs.files q := by
  simp [FS.write, plookup_pset_other _ h]

theorem files_remove_other {fs : FS} {p q : FPath} (h : q ≠ p) :
    plookup (fs.remove p).files q = plookup fs.files q := by
  simp [FS.remove, plookup_premove_other h]

theorem readOld_eq_of_files_eq {fs fs' : FS} {p : FPath}
    (h : plookup fs'.files p = plookup fs.files p) :
    fs'.readOld p = fs.readOld p := by
  simp [FS.readOld, h]

theorem staleOk_eq_of_files_eq {fs fs' : FS} {p : FPath}
    (h : plookup fs'.files p = plookup fs.files p) :
    staleOk fs' p = staleOk fs p := by
  simp [staleOk, h]

/-! ### Lemmas about `writeIfChanged` -/

theorem wic_skip {fs : FS} {p : FPath} {new : String} {dry : Bool}
    {mkEv : Option String → String → LogEvent} (h : fs.readOld p = some new) :
    writeIfChanged fs p new dry mkEv = ⟨fs, [], [], []⟩ := by
  simp [writeIfChanged, h]

theorem wic_readOld_self (fs : FS) (p : FPath) (new : String)
    (mkEv : Option String → String → LogEvent) :
    ((writeIfChanged fs p new false mkEv).fs).readOld p = some new := by
  by_cases h : fs.readOld p = some new
  · simp [writeIfChanged, h]
  · simp [writeIfChanged, h, readOld_write_self]

theorem wic_files_other {fs : FS} {p q : FPath} {new : String} {dry : Bool}
    {mkEv : Option String → String → LogEvent} (h : q ≠ p) :
    plookup (writeIfChanged fs p new dry mkEv).fs.files q = plookup fs.files q := by
  by_cases h1 : fs.readOld p = some new
  · simp [writeIfChanged, h1]
  · cases dry
    · simp [writeIfChanged, h1, files_write_other new h]
    · simp [writeIfChanged, h1]

theorem wic_dirs (fs : FS) (p : FPath) (new : String) (dry : Bool)
    (mkEv : Option String → String → LogEvent) :
    (writeIfChanged fs p new dry mkEv).fs.dirs = fs.dirs := by
  by_cases h1 : fs.readOld p = some new
  · simp [writeIfChanged, h1]
  · cases dry
    · simp [writeIfChanged, h1, FS.write]
    · simp [writeIfChanged, h1]

theorem wic_baseDir (fs : FS) (p : FPath) (new : String) (dry : Bool)
    (mkEv : Option String → String → LogEvent) :
    (writeIfChanged fs p new dry mkEv).fs.baseDir = fs.baseDir := by
  by_cases h1 : fs.readOld p = some new
  · simp [writeIfChanged, h1]
  · cases dry
    · simp [writeIfChanged, h1, FS.write]
    · simp [writeIfChanged, h1]

theorem wic_writes_sub {fs : FS} {p q : FPath} {new : String} {dry : Bool}
    {mkEv : Option String → String → LogEvent}
    (h : q ∈ (writeIfChanged fs p new dry mkEv).writes) : q = p := by
  by_cases h1 : fs.readOld p = some new
  · simp [writeIfChanged, h1] at h
  · cases dry
    · simpa [writeIfChanged, h1] using h
    · simp [writeIfChanged, h1] at h

theorem wic_deletes (fs : FS) (p : FPath) (new : String) (dry : Bool)
    (mkEv : Option String → String → LogEvent) :
    (writeIfChanged fs p new dry mkEv).deletes = [] := by
  by_cases h1 : fs.readOld p = some new
  · simp [writeIfChanged, h1]
  · cases dry
    · simp [writeIfChanged, h1]
    · simp [writeIfChanged, h1]

theorem wic_dry_fs (fs : FS) (p : FPath) (new : String)
    (mkEv : Option String → String → LogEvent) :
    (writeIfChanged fs p new true mkEv).fs = fs := by
  by_cases h1 : fs.readOld p = some new
  · simp [writeIfChanged, h1]
  · simp [writeIfChanged, h1]

theorem wic_dry_writes (fs : FS) (p : FPath) (new : String)
    (mkEv : Option String → String → LogEvent) :
    (writeIfChanged fs p new true mkEv).writes = [] := by
  by_cases h1 : fs.readOld p = some new
  · simp [writeIfChanged, h1]
  · simp [writeIfChanged, h1]

theorem wic_logs {fs : FS} {p : FPath} {new : String} {dry : Bool}
    {mkEv : Option String → String → LogEvent} :
    (writeIfChanged fs p new dry mkEv).logs = [] ∨
    ∃ old, (writeIfChanged fs p new dry mkEv).logs = [mkEv old new] := by
  by_cases h1 : fs.readOld p = some new
  · exact .inl (by simp [writeIfChanged, h1])
  · cases dry
    · exact .inl (by simp [writeIfChanged, h1])
    · exact .inr ⟨fs.readOld p, by simp [writeIfChanged, h1]⟩

theorem wic_logs_nondry (fs : FS) (p : FPath) (new : String)
    (mkEv : Option String → String → LogEvent) :
    (writeIfChanged fs p new false mkEv).logs = [] := by
  by_cases h1 : fs.readOld p = some new
  · simp [writeIfChanged, h1]
  · simp [writeIfChanged, h1]

/-! ### Lemmas about `deleteIfExists` -/

theorem die_skip {fs : FS} {p : FPath} {dry : Bool} (h : staleOk fs p = true) :
    deleteIfExists fs p dry = ⟨fs, [], [], []⟩ := by
  rcases hl : plookup fs.files p with _ | nd
  · cases dry
    · simp [deleteIfExists, FS.exists?, hl]
    · simp [deleteIfExists, FS.exists?, hl]
  · have hdf : nd.deleteFails = true := by simpa [staleOk, hl] using h
    cases dry
    · simp [deleteIfExists, FS.exists?, hl, hdf]
    · simp [deleteIfExists, FS.exists?, hl]

theorem die_dry (fs : FS) (p : FPath) :
    deleteIfExists fs p true = ⟨fs, [], [], []⟩ := by
  simp [deleteIfExists]

theorem die_staleOk (fs : FS) (p : FPath) :
    staleOk (deleteIfExists fs p false).fs p = true := by
  rcases hl : plookup fs.files p with _ | nd
  · simp [deleteIfExists, FS.exists?, hl, staleOk]
  · by_cases hdf : nd.deleteFails
    · simp [deleteIfExists, FS.exists?, hl, hdf, staleOk]
    · simp [deleteIfExists, FS.exists?, hl, hdf, staleOk, FS.remove,
        plookup_premove_self]

theorem die_files_other {fs : FS} {p q : FPath} {dry : Bool} (h : q ≠ p) :
    plookup (deleteIfExists fs p dry).fs.files q = plookup fs.files q := by
  rcases hl : plookup fs.files p with _ | nd
  · cases dry <;> simp [deleteIfExists, FS.exists?, hl]
  · by_cases hdf : nd.deleteFails <;> cases dry <;>
      simp [deleteIfExists, FS.exists?, hl, hdf, files_remove_other h]

theorem die_dirs (fs : FS) (p : FPath) (dry : Bool) :
    (deleteIfExists fs p dry).fs.dirs = fs.dirs := by
  rcases hl : plookup fs.files p with _ | nd
  · cases dry <;> simp [deleteIfExists, FS.exists?, hl]
  · by_cases hdf : nd.deleteFails <;> cases dry <;>
      simp [deleteIfExists, FS.exists?, hl, hdf, FS.remove]

theorem die_baseDir (fs : FS) (p : FPath) (dry : Bool) :
    (deleteIfExists fs p dry).fs.baseDir = fs.baseDir := by
  rcases hl : plookup fs.files p with _ | nd
  · cases dry <;> simp [deleteIfExists, FS.exists?, hl]
  · by_cases hdf : nd.deleteFails <;> cases dry <;>
      simp [deleteIfExists, FS.exists?, hl, hdf, FS.remove]

theorem die_writes (fs : FS) (p : FPath) (dry : Bool) :
    (deleteIfExists fs p dry).writes = [] := by
  rcases hl : plookup fs.files p with _ | nd
  · cases dry <;> simp [deleteIfExists, FS.exists?, hl]
  · by_cases hdf : nd.deleteFails <;> cases dry <;>
      simp [deleteIfExists, FS.exists?, hl, hdf]

theorem die_deletes_sub {fs : FS} {p q : FPath} {dry : Bool}
    (h : q ∈ (deleteIfExists fs p dry).deletes) : q = p := by
  rcases hl : plookup fs.files p with _ | nd
  · cases dry <;> simp [deleteIfExists, FS.exists?, hl] at h
  · by_cases hdf : nd.deleteFails <;> cases dry <;>
      simp [deleteIfExists, FS.exists?, hl, hdf] at h
    exact h

theorem die_logs_deletes (fs : FS) (p : FPath) (dry : Bool) {q : FPath}
    (h : LogEvent.removedStale q ∈ (deleteIfExists fs p dry).logs) :
    q ∈ (deleteIfExists fs p dry).deletes := by
  rcases hl : plookup fs.files p with _ | nd
  · cases dry <;> simp [deleteIfExists, FS.exists?, hl] at h
  · by_cases hdf : nd.deleteFails <;> cases dry <;>
      simp [deleteIfExists, FS.exists?, hl, hdf] at h ⊢
    exact h

theorem die_fail_silent {fs : FS} {p : FPath} {nd : FileNode} {dry : Bool}
    (hl : plookup fs.files p = some nd) (hdf : nd.deleteFails = true) :
    deleteIfExists fs p dry = ⟨fs, [], [], []⟩ :=
  die_skip (by simp [staleOk, hl, hdf])

/-! ### Lemmas about the per-file steps -/

/-- The state a decision is meant to establish at its file. -/
def stepEnsured (fs : FS) (a : String) (fd : String × FileDecision) : Prop :=
  match fd.2 with
  | .skip => True
  | .del => staleOk fs (.sub a fd.1) = true
  | .put s => fs.readOld (.sub a fd.1) = some s

theorem stepEnsured_of_files_eq {fs fs' : FS} {a : String}
    {fd : String × FileDecision}
    (hf : plookup fs'.files (.sub a fd.1) = plookup fs.files (.sub a fd.1))
    (h : stepEnsured fs a fd) : stepEnsured fs' a fd := by
  rcases fd with ⟨f, d⟩
  cases d with
  | skip => trivial
  | del => exact (staleOk_eq_of_files_eq hf).trans h
  | put s => exact (readOld_eq_of_files_eq hf).trans h

theorem fileStep_files_other {fs : FS} {a : String} {dry : Bool}
    {fd : String × FileDecision} {q : FPath} (h : q ≠ .sub a fd.1) :
    plookup (fileStep a dry fs fd).fs.files q = plookup fs.files q := by
  rcases fd with ⟨f, d⟩
  cases d with
  | skip => rfl
  | del => exact die_files_other h
  | put s => exact wic_files_other h

theorem fileStep_dirs (fs : FS) (a : String) (dry : Bool)
    (fd : String × FileDecision) : (fileStep a dry fs fd).fs.dirs = fs.dirs := by
  rcases fd with ⟨f, d⟩
  cases d with
  | skip => rfl
  | del => exact die_dirs fs _ dry
  | put s => exact wic_dirs fs _ s dry _

theorem fileStep_baseDir (fs : FS) (a : String) (dry : Bool)
    (fd : String × FileDecision) : (fileStep a dry fs fd).fs.baseDir = fs.baseDir := by
  rcases fd with ⟨f, d⟩
  cases d with
  | skip => rfl
  | del => exact die_baseDir fs _ dry
  | put s => exact wic_baseDir fs _ s dry _

theorem fileStep_post (fs : FS) (a : String) (fd : String × FileDecision) :
    stepEnsured (fileStep a false fs fd).fs a fd := by
  rcases fd with ⟨f, d⟩
  cases d with
  | skip => trivial
  | del => exact die_staleOk fs _
  | put s => exact wic_readOld_self fs _ s _

theorem fileStep_skip {fs : FS} {a : String} {dry : Bool}
    {fd : String × FileDecision} (h : stepEnsured fs a fd) :
    fileStep a dry fs fd = ⟨fs, [], [], []⟩ := by
  rcases fd with ⟨f, d⟩
  cases d with
  | skip => rfl
  | del => exact die_skip h
  | put s => exact wic_skip h

theorem fileStep_writes_sub {fs : FS} {a : String} {dry : Bool}
    {fd : String × FileDecision} {q : FPath}
    (h : q ∈ (fileStep a dry fs fd).writes) : q = .sub a fd.1 := by
  rcases fd with ⟨f, d⟩
  cases d with
  | skip => simp [fileStep] at h
  | del => simp [fileStep, die_writes] at h
  | put s => exact wic_writes_sub h

theorem fileStep_deletes_sub {fs : FS} {a : String} {dry : Bool}
    {fd : String × FileDecision} {q : FPath}
    (h : q ∈ (fileStep a dry fs fd).deletes) : q = .sub a fd.1 := by
  rcases fd with ⟨f, d⟩
  cases d with
  | skip => simp [fileStep] at h
  | del => exact die_deletes_sub h
  | put s => simp [fileStep, wic_deletes] at h

theorem fileStep_dry (fs : FS) (a : String) (fd : String × FileDecision) :
    (fileStep a true fs fd).fs = fs ∧ (fileStep a true fs fd).writes = [] ∧
    (fileStep a true fs fd).deletes = [] := by
  rcases fd with ⟨f, d⟩
  cases d with
  | skip => exact ⟨rfl, rfl, rfl⟩
  | del => simp [fileStep, die_dry]
  | put s => exact ⟨wic_dry_fs fs _ s _, wic_dry_writes fs _ s _, wic_deletes fs _ s _ _⟩

theorem fileStep_removed_logs {fs : FS} {a : String} {dry : Bool}
    {fd : String × FileDecision} {q : FPath}
    (h : LogEvent.removedStale q ∈ (fileStep a dry fs fd).logs) :
    q ∈ (fileStep a dry fs fd).deletes := by
  rcases fd with ⟨f, d⟩
  cases d with
  | skip => simp [fileStep] at h
  | del => exact die_logs_deletes fs _ dry h
  | put s =>
      exfalso
      rcases (@wic_logs fs (.sub a f) s dry (evFor a f)) with hl | ⟨old, hl⟩
      · rw [show (fileStep a dry fs (f, FileDecision.put s)).logs =
          (writeIfChanged fs (.sub a f) s dry (evFor a f)).logs from rfl, hl] at h
        simp at h
      · rw [show (fileStep a dry fs (f, FileDecision.put s)).logs =
          (writeIfChanged fs (.sub a f) s dry (evFor a f)).logs from rfl, hl] at h
        simp only [List.mem_singleton] at h
        unfold evFor at h
        by_cases hf : f = "name.txt"
        · rw [if_pos hf] at h
          exact LogEvent.noConfusion h
        · rw [if_neg hf] at h
          exact LogEvent.noConfusion h

/-! ### Lemmas about `runSteps` -/

theorem runSteps_files_other {a : String} {dry : Bool} {q : FPath} :
    ∀ {fds : List (String × FileDecision)} {fs : FS},
      (∀ fd ∈ fds, q ≠ FPath.sub a fd.1) →
      plookup (runSteps a dry fs fds).fs.files q = plookup fs.files q := by
  intro fds
  induction fds with
  | nil => intro fs _; rfl
  | cons fd rest ih =>
      intro fs h
      show plookup (runSteps a dry (fileStep a dry fs fd).fs rest).fs.files q = _
      rw [ih (fun g hg => h g (List.mem_cons_of_mem fd hg))]
      exact fileStep_files_other (h fd (List.mem_cons_self fd rest))

theorem runSteps_dirs (a : String) (dry : Bool) :
    ∀ (fds : List (String × FileDecision)) (fs : FS),
      (runSteps a dry fs fds).fs.dirs = fs.dirs := by
  intro fds
  induction fds with
  | nil => intro fs; rfl
  | cons fd rest ih =>
      intro fs
      show (runSteps a dry (fileStep a dry fs fd).fs rest).fs.dirs = fs.dirs
      rw [ih, fileStep_dirs]

theorem runSteps_baseDir (a : String) (dry : Bool) :
    ∀ (fds : List (String × FileDecision)) (fs : FS),
      (runSteps a dry fs fds).fs.baseDir = fs.baseDir := by
  intro fds
  induction fds with
  | nil => intro fs; rfl
  | cons fd rest ih =>
      intro fs
      show (runSteps a dry (fileStep a dry fs fd).fs rest).fs.baseDir = fs.baseDir
      rw [ih, fileStep_baseDir]

theorem runSteps_post {a : String} :
    ∀ {fds : List (String × FileDecision)} {fs : FS},
      (fds.map Prod.fst).Nodup →
      ∀ fd ∈ fds, stepEnsured (runSteps a false fs fds).fs a fd := by
  intro fds
  induction fds with
  | nil => intro fs _ fd h; cases h
  | cons g rest ih =>
      intro fs hnd fd hmem
      have hndr : (rest.map Prod.fst).Nodup := (List.nodup_cons.mp hnd).2
      rcases List.mem_cons.mp hmem with rfl | hmem
      · -- the decision just executed; later steps use different file names
        have hg : ∀ e ∈ rest, FPath.sub a fd.1 ≠ FPath.sub a e.1 := by
          intro e he hEq
          have hf : fd.1 = e.1 := by
            injection hEq
          exact (List.nodup_cons.mp hnd).1
            (hf ▸ List.mem_map_of_mem Prod.fst he)
        show stepEnsured (runSteps a false (fileStep a false fs fd).fs rest).fs a fd
        exact stepEnsured_of_files_eq (runSteps_files_other hg)
          (fileStep_post fs a fd)
      · show stepEnsured (runSteps a false (fileStep a false fs g).fs rest).fs a fd
        exact ih hndr fd hmem

theorem runSteps_skip {a : String} {dry : Bool} :
    ∀ {fds : List (String × FileDecision)} {fs : FS},
      (∀ fd ∈ fds, stepEnsured fs a fd) →
      runSteps a dry fs fds = ⟨fs, [], [], []⟩ := by
  intro fds
  induction fds with
  | nil => intro fs _; rfl
  | cons fd rest ih =>
      intro fs h
      show (⟨(runSteps a dry (fileStep a dry fs fd).fs rest).fs, _, _, _⟩ : WRes) = _
      rw [fileStep_skip (h fd (List.mem_cons_self fd rest))]
      rw [ih (fun g hg => h g (List.mem_cons_of_mem fd hg))]
      simp

theorem runSteps_writes_sub {a : String} {dry : Bool} {q : FPath} :
    ∀ {fds : List (String × FileDecision)} {fs : FS},
      q ∈ (runSteps a dry fs fds).writes → ∃ f, q = FPath.sub a f := by
  intro fds
  induction fds with
  | nil => intro fs h; cases h
  | cons fd rest ih =>
      intro fs h
      rcases List.mem_append.mp h with h1 | h2
      · exact ⟨fd.1, fileStep_writes_sub h1⟩
      · exact ih h2

theorem runSteps_deletes_sub {a : String} {dry : Bool} {q : FPath} :
    ∀ {fds : List (String × FileDecision)} {fs : FS},
      q ∈ (runSteps a dry fs fds).deletes → ∃ f, q = FPath.sub a f := by
  intro fds
  induction fds with
  | nil => intro fs h; cases h
  | cons fd rest ih =>
      intro fs h
      rcases List.mem_append.mp h with h1 | h2
      · exact ⟨fd.1, fileStep_deletes_sub h1⟩
      · exact ih h2

theorem runSteps_dry :
    ∀ {fds : List (String × FileDecision)} {a : String} {fs : FS},
      (runSteps a true fs fds).fs = fs ∧ (runSteps a true fs fds).writes = [] ∧
      (runSteps a true fs fds).deletes = [] := by
  intro fds
  induction fds with
  | nil => intro a fs; exact ⟨rfl, rfl, rfl⟩
  | cons fd rest ih =>
      intro a fs
      obtain ⟨h1, h2, h3⟩ := fileStep_dry fs a fd
      constructor
      · show (runSteps a true (fileStep a true fs fd).fs rest).fs = fs
        rw [h1]
        exact (@ih a fs).1
      constructor
      · show (fileStep a true fs fd).writes ++
          (runSteps a true (fileStep a true fs fd).fs rest).writes = []
        rw [h1, h2]
        simpa using (@ih a fs).2.1
      · show (fileStep a true fs fd).deletes ++
          (runSteps a true (fileStep a true fs fd).fs rest).deletes = []
        rw [h1, h3]
        simpa using (@ih a fs).2.2

theorem runSteps_removed_logs {a : String} {dry : Bool} {q : FPath} :
    ∀ {fds : List (String × FileDecision)} {fs : FS},
      LogEvent.removedStale q ∈ (runSteps a dry fs fds).logs →
      q ∈ (runSteps a dry fs fds).deletes := by
  intro fds
  induction fds with
  | nil => intro fs h; cases h
  | cons fd rest ih =>
      intro fs h
      rcases List.mem_append.mp h with h1 | h2
      · exact List.mem_append.mpr (.inl (fileStep_removed_logs h1))
      · exact List.mem_append.mpr (.inr (ih h2))

/-! ### Lemmas about `processAaguid` -/

/-- `q` lies inside the directory of AAGUID `a`. -/
def FPath.inDir : FPath → String → Prop
  | .sub b _, a => b = a
  | .top _, _ => False

theorem mkdirSub_mem (fs : FS) (a : String) : a ∈ (fs.mkdirSub a).dirs := by
  unfold FS.mkdirSub
  split
  · assumption
  · simp

theorem mkdirSub_mem_iff (fs : FS) (a x : String) :
    x ∈ (fs.mkdirSub a).dirs ↔ x ∈ fs.dirs ∨ x = a := by
  unfold FS.mkdirSub
  split
  · next h =>
      constructor
      · exact fun hx => .inl hx
      · rintro (hx | rfl)
        · exact hx
        · exact h
  · simp

theorem mkdirSub_of_mem {fs : FS} {a : String} (h : a ∈ fs.dirs) :
    fs.mkdirSub a = fs := by
  unfold FS.mkdirSub
  rw [if_pos h]

theorem mkdirSub_files (fs : FS) (a : String) :
    (fs.mkdirSub a).files = fs.files := by
  unfold FS.mkdirSub
  split
  · rfl
  · rfl

theorem mkdirSub_baseDir (fs : FS) (a : String) :
    (fs.mkdirSub a).baseDir = fs.baseDir := by
  unfold FS.mkdirSub
  split
  · rfl
  · rfl

theorem mkdirSub_dirs_mono {fs : FS} {a x : String} (h : x ∈ fs.dirs) :
    x ∈ (fs.mkdirSub a).dirs := (mkdirSub_mem_iff fs a x).mpr (.inl h)

/-- The loop body establishes this after running (non-dry) on an AAGUID. -/
def paEnsures (fs : FS) (a : String) (items : List MetaItem)
    (cm cmm : Option (List (String × Json))) : Prop :=
  a ∈ fs.dirs ∧ ∀ fd ∈ decisionsFor a items cm cmm, stepEnsured fs a fd

theorem decisionsFor_fst (a : String) (items : List MetaItem)
    (cm cmm : Option (List (String × Json))) :
    (decisionsFor a items cm cmm).map Prod.fst =
      ["name.txt", "metadata.json", "icon.txt", "c_mds.json",
       "icon_light.txt", "icon_dark.txt"] := rfl

theorem paEnsures_of_files_eq {fs fs' : FS} {a : String} {items : List MetaItem}
    {cm cmm : Option (List (String × Json))}
    (hf : ∀ f, plookup fs'.files (.sub a f) = plookup fs.files (.sub a f))
    (hd : a ∈ fs'.dirs) (h : paEnsures fs a items cm cmm) :
    paEnsures fs' a items cm cmm :=
  ⟨hd, fun fd hfd => stepEnsured_of_files_eq (hf fd.1) (h.2 fd hfd)⟩

theorem pa_post (fs : FS) (a : String) (items : List MetaItem)
    (cm cmm : Option (List (String × Json))) :
    paEnsures (processAaguid fs a items cm cmm false).fs a items cm cmm := by
  constructor
  · show a ∈ (runSteps a false (fs.mkdirSub a) (decisionsFor a items cm cmm)).fs.dirs
    rw [runSteps_dirs]
    exact mkdirSub_mem fs a
  · intro fd hfd
    exact runSteps_post (by rw [decisionsFor_fst]; decide) fd hfd

theorem pa_skip {fs : FS} {a : String} {items : List MetaItem}
    {cm cmm : Option (List (String × Json))} {dry : Bool}
    (h : paEnsures fs a items cm cmm) :
    processAaguid fs a items cm cmm dry = ⟨fs, [], [], []⟩ := by
  unfold processAaguid
  rw [mkdirSub_of_mem h.1]
  exact runSteps_skip h.2

theorem pa_files_other {fs : FS} {a : String} {items : List MetaItem}
    {cm cmm : Option (List (String × Json))} {dry : Bool} {q : FPath}
    (h : ¬ q.inDir a) :
    plookup (processAaguid fs a items cm cmm dry).fs.files q = plookup fs.files q := by
  unfold processAaguid
  rw [runSteps_files_other, mkdirSub_files]
  intro fd _ hEq
  exact h (by rw [hEq]; exact rfl)

theorem pa_dirs (fs : FS) (a : String) (items : List MetaItem)
    (cm cmm : Option (List (String × Json))) (dry : Bool) :
    (processAaguid fs a items cm cmm dry).fs.dirs = (fs.mkdirSub a).dirs := by
  unfold processAaguid
  rw [runSteps_dirs]

theorem pa_baseDir (fs : FS) (a : String) (items : List MetaItem)
    (cm cmm : Option (List (String × Json))) (dry : Bool) :
    (processAaguid fs a items cm cmm dry).fs.baseDir = fs.baseDir := by
  unfold processAaguid
  rw [runSteps_baseDir, mkdirSub_baseDir]

theorem pa_writes_sub {fs : FS} {a : String} {items : List MetaItem}
    {cm cmm : Option (List (String × Json))} {dry : Bool} {q : FPath}
    (h : q ∈ (processAaguid fs a items cm cmm dry).writes) : q.inDir a := by
  unfold processAaguid at h
  obtain ⟨f, rfl⟩ := runSteps_writes_sub h
  exact rfl

theorem pa_deletes_sub {fs : FS} {a : String} {items : List MetaItem}
    {cm cmm : Option (List (String × Json))} {dry : Bool} {q : FPath}
    (h : q ∈ (processAaguid fs a items cm cmm dry).deletes) : q.inDir a := by
  unfold processAaguid at h
  obtain ⟨f, rfl⟩ := runSteps_deletes_sub h
  exact rfl

theorem pa_dry (fs : FS) (a : String) (items : List MetaItem)
    (cm cmm : Option (List (String × Json))) :
    (processAaguid fs a items cm cmm true).fs = fs.mkdirSub a ∧
    (processAaguid fs a items cm cmm true).writes = [] ∧
    (processAaguid fs a items cm cmm true).deletes = [] := runSteps_dry

theorem pa_removed_logs {fs : FS} {a : String} {items : List MetaItem}
    {cm cmm : Option (List (String × Json))} {dry : Bool} {q : FPath}
    (h : LogEvent.removedStale q ∈ (processAaguid fs a items cm cmm dry).logs) :
    q ∈ (processAaguid fs a items cm cmm dry).deletes :=
  runSteps_removed_logs h

/-! ### Lemmas about `processAll` -/

theorem processAll_files_other {cm cmm : Option (List (String × Json))}
    {dry : Bool} {q : FPath} :
    ∀ {data : List (String × List MetaItem)} {fs : FS},
      (∀ kv ∈ data, ¬ q.inDir kv.1) →
      plookup (processAll fs data cm cmm dry).1.fs.files q = plookup fs.files q := by
  intro data
  induction data with
  | nil => intro fs _; rfl
  | cons kv rest ih =>
      intro fs h
      obtain ⟨a, items⟩ := kv
      show plookup (processAll (processAaguid fs a items cm cmm dry).fs
        rest cm cmm dry).1.fs.files q = _
      rw [ih (fun g hg => h g (List.mem_cons_of_mem _ hg))]
      exact pa_files_other (h (a, items) (List.mem_cons_self _ rest))

theorem processAll_dirs_iff {cm cmm : Option (List (String × Json))}
    {dry : Bool} :
    ∀ {data : List (String × List MetaItem)} {fs : FS} {x : String},
      (x ∈ (processAll fs data cm cmm dry).1.fs.dirs ↔
        x ∈ fs.dirs ∨ x ∈ data.map Prod.fst) := by
  intro data
  induction data with
  | nil => intro fs x; simp [processAll]
  | cons kv rest ih =>
      intro fs x
      obtain ⟨a, items⟩ := kv
      show x ∈ (processAll (processAaguid fs a items cm cmm dry).fs
        rest cm cmm dry).1.fs.dirs ↔ _
      rw [ih, pa_dirs, mkdirSub_mem_iff]
      simp only [List.map_cons, List.mem_cons]
      tauto

theorem processAll_baseDir {cm cmm : Option (List (String × Json))}
    {dry : Bool} :
    ∀ {data : List (String × List MetaItem)} {fs : FS},
      (processAll fs data cm cmm dry).1.fs.baseDir = fs.baseDir := by
  intro data
  induction data with
  | nil => intro fs; rfl
  | cons kv rest ih =>
      intro fs
      obtain ⟨a, items⟩ := kv
      show (processAll (processAaguid fs a items cm cmm dry).fs
        rest cm cmm dry).1.fs.baseDir = fs.baseDir
      rw [ih, pa_baseDir]

theorem processAll_post {cm cmm : Option (List (String × Json))} :
    ∀ {data : List (String × List MetaItem)} {fs : FS},
      (data.map Prod.fst).Nodup →
      ∀ kv ∈ data, paEnsures (processAll fs data cm cmm false).1.fs kv.1 kv.2 cm cmm := by
  intro data
  induction data with
  | nil => intro fs _ kv h; cases h
  | cons g rest ih =>
      intro fs hnd kv hmem
      obtain ⟨a, items⟩ := g
      have hndr : (rest.map Prod.fst).Nodup := (List.nodup_cons.mp hnd).2
      rcases List.mem_cons.mp hmem with heq | hmem
      · subst heq
        show paEnsures (processAll (processAaguid fs a items cm cmm false).fs
          rest cm cmm false).1.fs a items cm cmm
        refine paEnsures_of_files_eq ?_ ?_ (pa_post fs a items cm cmm)
        · intro f
          apply processAll_files_other
          intro e he hin
          have hae : a = e.1 := hin
          exact (List.nodup_cons.mp hnd).1 (List.mem_map.mpr ⟨e, he, hae.symm⟩)
        · rw [processAll_dirs_iff]
          exact .inl (pa_post fs a items cm cmm).1
      · show paEnsures (processAll (processAaguid fs a items cm cmm false).fs
          rest cm cmm false).1.fs kv.1 kv.2 cm cmm
        exact ih hndr kv hmem

theorem processAll_skip {cm cmm : Option (List (String × Json))} {dry : Bool} :
    ∀ {data : List (String × List MetaItem)} {fs : FS},
      (∀ kv ∈ data, paEnsures fs kv.1 kv.2 cm cmm) →
      processAll fs data cm cmm dry = (⟨fs, [], [], []⟩, 0, data.length) := by
  intro data
  induction data with
  | nil => intro fs _; rfl
  | cons kv rest ih =>
      intro fs h
      obtain ⟨a, items⟩ := kv
      have hhead := h (a, items) (List.mem_cons_self _ rest)
      have hstep : processAaguid fs a items cm cmm dry = ⟨fs, [], [], []⟩ :=
        pa_skip hhead
      have hrest := ih (fun g hg => h g (List.mem_cons_of_mem _ hg))
      simp only [processAll, hstep, hrest, if_pos hhead.1]
      simp
      omega

theorem processAll_writes_sub {cm cmm : Option (List (String × Json))}
    {dry : Bool} {q : FPath} :
    ∀ {data : List (String × List MetaItem)} {fs : FS},
      q ∈ (processAll fs data cm cmm dry).1.writes →
      ∃ kv ∈ data, q.inDir kv.1 := by
  intro data
  induction data with
  | nil => intro fs h; cases h
  | cons kv rest ih =>
      intro fs h
      obtain ⟨a, items⟩ := kv
      rcases List.mem_append.mp h with h1 | h2
      · exact ⟨(a, items), List.mem_cons_self _ _, pa_writes_sub h1⟩
      · obtain ⟨g, hg, hin⟩ := ih h2
        exact ⟨g, List.mem_cons_of_mem _ hg, hin⟩

theorem processAll_deletes_sub {cm cmm : Option (List (String × Json))}
    {dry : Bool} {q : FPath} :
    ∀ {data : List (String × List MetaItem)} {fs : FS},
      q ∈ (processAll fs data cm cmm dry).1.deletes →
      ∃ kv ∈ data, q.inDir kv.1 := by
  intro data
  induction data with
  | nil => intro fs h; cases h
  | cons kv rest ih =>
      intro fs h
      obtain ⟨a, items⟩ := kv
      rcases List.mem_append.mp h with h1 | h2
      · exact ⟨(a, items), List.mem_cons_self _ _, pa_deletes_sub h1⟩
      · obtain ⟨g, hg, hin⟩ := ih h2
        exact ⟨g, List.mem_cons_of_mem _ hg, hin⟩

theorem processAll_dry {cm cmm : Option (List (String × Json))} :
    ∀ {data : List (String × List MetaItem)} {fs : FS},
      (processAll fs data cm cmm true).1.fs.files = fs.files ∧
      (processAll fs data cm cmm true).1.writes = [] ∧
      (processAll fs data cm cmm true).1.deletes = [] := by
  intro data
  induction data with
  | nil => intro fs; exact ⟨rfl, rfl, rfl⟩
  | cons kv rest ih =>
      intro fs
      obtain ⟨a, items⟩ := kv
      obtain ⟨h1, h2, h3⟩ := pa_dry fs a items cm cmm
      refine ⟨?_, ?_, ?_⟩
      · show (processAll (processAaguid fs a items cm cmm true).fs
          rest cm cmm true).1.fs.files = fs.files
        rw [(@ih (processAaguid fs a items cm cmm true).fs).1, h1,
          mkdirSub_files]
      · show (processAaguid fs a items cm cmm true).writes ++
          (processAll (processAaguid fs a items cm cmm true).fs
            rest cm cmm true).1.writes = []
        rw [h2, (@ih (processAaguid fs a items cm cmm true).fs).2.1]
        rfl
      · show (processAaguid fs a items cm cmm true).deletes ++
          (processAll (processAaguid fs a items cm cmm true).fs
            rest cm cmm true).1.deletes = []
        rw [h3, (@ih (processAaguid fs a items cm cmm true).fs).2.2]
        rfl

theorem processAll_removed_logs {cm cmm : Option (List (String × Json))}
    {dry : Bool} {q : FPath} :
    ∀ {data : List (String × List MetaItem)} {fs : FS},
      LogEvent.removedStale q ∈ (processAll fs data cm cmm dry).1.logs →
      q ∈ (processAll fs data cm cmm dry).1.deletes := by
  intro data
  induction data with
  | nil => intro fs h; cases h
  | cons kv rest ih =>
      intro fs h
      obtain ⟨a, items⟩ := kv
      rcases List.mem_append.mp h with h1 | h2
      · exact List.mem_append.mpr (.inl (pa_removed_logs h1))
      · exact List.mem_append.mpr (.inr (ih h2))

/-! ### Key uniqueness of the AAGUID map -/

theorem akey_iff_mem_keys {α : Type} :
    ∀ (l : List (String × α)) (k : String),
      akey l k = true ↔ k ∈ l.map Prod.fst := by
  intro l k
  induction l with
  | nil => simp [akey, alookup]
  | cons kv rest ih =>
      obtain ⟨k1, v1⟩ := kv
      by_cases hk : k1 = k
      · subst hk
        simp [akey, alookup]
      · simp only [akey, alookup, if_neg hk, List.map_cons, List.mem_cons]
        rw [← akey]
        rw [ih]
        constructor
        · exact fun h => .inr h
        · rintro (h | h)
          · exact absurd h.symm hk
          · exact h

theorem foldl_preserve {α β : Type} {P : β → Prop} {f : β → α → β}
    (hstep : ∀ acc x, P acc → P (f acc x)) :
    ∀ (l : List α) (acc : β), P acc → P (List.foldl f acc l) := by
  intro l
  induction l with
  | nil => intro acc h; exact h
  | cons x rest ih => intro acc h; exact ih (f acc x) (hstep acc x h)

theorem concat_fst_nodup {α : Type} {l : List (String × α)} {k : String} {v : α}
    (hnd : (l.map Prod.fst).Nodup) (hk : akey l k = false) :
    ((l ++ [(k, v)]).map Prod.fst).Nodup := by
  have hkm : k ∉ l.map Prod.fst := by
    intro hmem
    rw [← akey_iff_mem_keys] at hmem
    rw [hk] at hmem
    cases hmem
  rw [List.map_append]
  apply List.Nodup.append hnd (by simp)
  intro x hx hx2
  simp only [List.map_cons, List.map_nil, List.mem_singleton] at hx2
  subst hx2
  exact hkm hx

theorem appendItem_fst_nodup {acc : List (String × List MetaItem)} {a : String}
    {it : MetaItem} (hnd : (acc.map Prod.fst).Nodup) :
    ((appendItem acc a it).map Prod.fst).Nodup := by
  unfold appendItem
  split
  · have : (acc.map (fun kv => if kv.1 = a then (kv.1, kv.2 ++ [it]) else kv)).map
        Prod.fst = acc.map Prod.fst := by
      rw [List.map_map]
      apply List.map_congr_left
      intro kv _
      by_cases hk : kv.1 = a
      · simp [hk]
      · simp [hk]
    rw [this]
    exact hnd
  · next h => exact concat_fst_nodup hnd (by simpa using h)

theorem extract_aaguids_nodup (mds_data : Json) :
    ((extract_aaguids mds_data).map Prod.fst).Nodup := by
  unfold extract_aaguids
  apply foldl_preserve
    (P := fun acc : List (String × List MetaItem) => (acc.map Prod.fst).Nodup)
  · intro acc entry h
    rcases entry with _ | b | n | s | xs | ekvs
    · exact h
    · exact h
    · exact h
    · exact h
    · exact h
    · rcases hms : (alookup ekvs "metadataStatement").getD (.obj []) with
        _ | b | n | s | xs | mkvs
      · simpa [hms] using h
      · simpa [hms] using h
      · simpa [hms] using h
      · simpa [hms] using h
      · simpa [hms] using h
      · rcases hag : pyGet mkvs "aaguid" with _ | b | n | s | xs | gkvs
        · simpa [hms, hag] using h
        · simpa [hms, hag] using h
        · simpa [hms, hag] using h
        · by_cases hs : s ≠ ""
          · simp only [hms, hag, if_pos hs]
            exact appendItem_fst_nodup h
          · simpa [hms, hag, hs] using h
        · simpa [hms, hag] using h
        · simpa [hms, hag] using h
  · simp

theorem ensure_placeholders_nodup {mdsKeys : List String}
    {m : Option (List (String × Json))} {nameOf : Json → Json} :
    ∀ {acc : List (String × List MetaItem)},
      (acc.map Prod.fst).Nodup →
      ((ensure_placeholders acc mdsKeys m nameOf).map Prod.fst).Nodup := by
  intro acc hnd
  unfold ensure_placeholders
  match m with
  | none => exact hnd
  | some mm =>
      by_cases hme : mm.isEmpty
      · simpa [hme] using hnd
      · simp only [hme]
        rw [if_neg (by simp)]
        refine foldl_preserve
          (P := fun acc : List (String × List MetaItem) => (acc.map Prod.fst).Nodup)
          ?_ mm acc hnd
        intro acc2 ckentry h2
        by_cases hck : ckentry.1 ∈ mdsKeys
        · simpa [hck] using h2
        · simp only [if_neg hck]
          by_cases hak : akey acc2 (canonicalFor ckentry.1 ckentry.2)
          · simpa [hak] using h2
          · rw [if_neg (by simpa using hak)]
            exact concat_fst_nodup h2 (by simpa using hak)

theorem mainData_nodup (mds_data : Json) (cj cmj : Option Json) :
    ((mainData mds_data cj cmj).map Prod.fst).Nodup := by
  unfold mainData
  by_cases h : mapTruthy (parse_combined_map cj) || mapTruthy (parse_c_mds_map cmj)
  · simp only [h, if_pos]
    exact ensure_placeholders_nodup
      (ensure_placeholders_nodup (extract_aaguids_nodup mds_data))
  · simp only [h]
    rw [if_neg (by simpa using h)]
    exact extract_aaguids_nodup mds_data

/-! ### `create_aaguid_directories` and `runMain` structure lemmas -/

theorem fs_setBase_of_true {fs : FS} (h : fs.baseDir = true) :
    ({ fs with baseDir := true } : FS) = fs := by
  cases fs
  simp_all

theorem cad_skip {data : List (String × List MetaItem)}
    {cm cmm : Option (List (String × Json))} {dry : Bool} {fs : FS}
    (hbase : fs.baseDir = true)
    (hens : ∀ kv ∈ data, paEnsures fs kv.1 kv.2 cm cmm) :
    create_aaguid_directories fs data cm cmm dry =
      (⟨fs, tailLog data cm cmm, [], []⟩, 0, data.length) := by
  unfold create_aaguid_directories
  simp only [fs_setBase_of_true hbase, processAll_skip hens]
  simp

theorem cad_post {data : List (String × List MetaItem)}
    {cm cmm : Option (List (String × Json))} {fs : FS}
    (hnd : (data.map Prod.fst).Nodup) :
    ∀ kv ∈ data,
      paEnsures (create_aaguid_directories fs data cm cmm false).1.fs
        kv.1 kv.2 cm cmm := by
  intro kv hkv
  show paEnsures (processAll { fs with baseDir := true } data cm cmm false).1.fs
    kv.1 kv.2 cm cmm
  exact processAll_post hnd kv hkv

theorem cad_baseDir (fs : FS) (data : List (String × List MetaItem))
    (cm cmm : Option (List (String × Json))) (dry : Bool) :
    (create_aaguid_directories fs data cm cmm dry).1.fs.baseDir = true := by
  show (processAll { fs with baseDir := true } data cm cmm dry).1.fs.baseDir = true
  rw [processAll_baseDir]

theorem sub_ne_top (a f g : String) : FPath.sub a f ≠ FPath.top g := by
  intro h
  cases h

theorem top_ne_sub (g a f : String) : FPath.top g ≠ FPath.sub a f := by
  intro h
  cases h

theorem paEnsures_wic_top {fs : FS} {g c : String} {dry : Bool}
    {mkEv : Option String → String → LogEvent} {a : String}
    {items : List MetaItem} {cm cmm : Option (List (String × Json))}
    (h : paEnsures fs a items cm cmm) :
    paEnsures (writeIfChanged fs (.top g) c dry mkEv).fs a items cm cmm :=
  paEnsures_of_files_eq (fun _ => wic_files_other (sub_ne_top _ _ _))
    (by rw [wic_dirs]; exact h.1) h

theorem runMain_ensures (m : Json) (cj cmj : Option Json) (fs : FS) (now : String) :
    ∀ kv ∈ mainData m cj cmj,
      paEnsures (runMain m cj cmj fs now false).fs kv.1 kv.2
        (parse_combined_map cj) (parse_c_mds_map cmj) := by
  intro kv hkv
  show paEnsures (writeIfChanged (writeIfChanged
      (create_aaguid_directories fs (mainData m cj cmj)
        (parse_combined_map cj) (parse_c_mds_map cmj) false).1.fs
      (.top "mds_summary.json") _ false _).fs
      (.top "aaguids.json") _ false _).fs kv.1 kv.2
      (parse_combined_map cj) (parse_c_mds_map cmj)
  have hbase := @cad_post (mainData m cj cmj) (parse_combined_map cj)
    (parse_c_mds_map cmj) fs (mainData_nodup m cj cmj) kv hkv
  exact paEnsures_wic_top (paEnsures_wic_top hbase)

theorem runMain_names (m : Json) (cj cmj : Option Json) (fs : FS) (now : String) :
    (runMain m cj cmj fs now false).fs.readOld (.top "aaguids.json") =
      some (namesContent (mainData m cj cmj)
        (parse_combined_map cj) (parse_c_mds_map cmj)) := by
  show (writeIfChanged (writeIfChanged
      (create_aaguid_directories fs (mainData m cj cmj)
        (parse_combined_map cj) (parse_c_mds_map cmj) false).1.fs
      (.top "mds_summary.json") _ false _).fs
      (.top "aaguids.json") _ false _).fs.readOld (.top "aaguids.json") = _
  exact wic_readOld_self _ _ _ _

theorem runMain_baseDir (m : Json) (cj cmj : Option Json) (fs : FS) (now : String) :
    (runMain m cj cmj fs now false).fs.baseDir = true := by
  show (writeIfChanged (writeIfChanged
      (create_aaguid_directories fs (mainData m cj cmj)
        (parse_combined_map cj) (parse_c_mds_map cmj) false).1.fs
      (.top "mds_summary.json") _ false _).fs
      (.top "aaguids.json") _ false _).fs.baseDir = true
  rw [wic_baseDir, wic_baseDir]
  exact cad_baseDir _ _ _ _ _

/-- A run starting from a filesystem that already satisfies every
per-AAGUID guarantee and already holds the current `aaguids.json` can write
at most `mds_summary.json`, and deletes nothing. -/
theorem second_run_core (m : Json) (cj cmj : Option Json) (fs1 : FS) (t2 : String)
    (hens : ∀ kv ∈ mainData m cj cmj,
      paEnsures fs1 kv.1 kv.2 (parse_combined_map cj) (parse_c_mds_map cmj))
    (hbase : fs1.baseDir = true)
    (hnames : fs1.readOld (.top "aaguids.json") =
      some (namesContent (mainData m cj cmj)
        (parse_combined_map cj) (parse_c_mds_map cmj))) :
    (∀ p ∈ (runMain m cj cmj fs1 t2 false).writes,
       p = FPath.top "mds_summary.json") ∧
    (runMain m cj cmj fs1 t2 false).deletes = [] ∧
    (∀ q, q ≠ FPath.top "mds_summary.json" →
       plookup (runMain m cj cmj fs1 t2 false).fs.files q =
       plookup fs1.files q) := by
  have hcad := @cad_skip (mainData m cj cmj) (parse_combined_map cj)
    (parse_c_mds_map cmj) false fs1 hbase hens
  have hrun2 : runMain m cj cmj fs1 t2 false =
      (let rs := writeIfChanged fs1 (.top "mds_summary.json")
          (summaryContent (mainData m cj cmj).length 0 (mainData m cj cmj).length t2)
          false
          (fun _ _ => .wouldUpdateTop (.top "mds_summary.json") (mainData m cj cmj).length)
       let rn := writeIfChanged rs.fs (.top "aaguids.json")
          (namesContent (mainData m cj cmj) (parse_combined_map cj) (parse_c_mds_map cmj))
          false
          (fun _ _ => .wouldUpdateTop (.top "aaguids.json") (mainData m cj cmj).length)
       ⟨rn.fs,
        (tailLog (mainData m cj cmj) (parse_combined_map cj) (parse_c_mds_map cmj)) ++
          rs.logs ++ rn.logs,
        [] ++ rs.writes ++ rn.writes,
        [] ++ rs.deletes ++ rn.deletes⟩) := by
    simp only [runMain]
    rw [hcad]
  rw [hrun2]
  have hne : FPath.top "aaguids.json" ≠ FPath.top "mds_summary.json" := by
    simp
  have hrn : writeIfChanged
      (writeIfChanged fs1 (.top "mds_summary.json")
        (summaryContent (mainData m cj cmj).length 0 (mainData m cj cmj).length t2)
        false
        (fun _ _ => .wouldUpdateTop (.top "mds_summary.json") (mainData m cj cmj).length)).fs
      (.top "aaguids.json")
      (namesContent (mainData m cj cmj) (parse_combined_map cj) (parse_c_mds_map cmj))
      false
      (fun _ _ => .wouldUpdateTop (.top "aaguids.json") (mainData m cj cmj).length) =
      ⟨(writeIfChanged fs1 (.top "mds_summary.json")
        (summaryContent (mainData m cj cmj).length 0 (mainData m cj cmj).length t2)
        false
        (fun _ _ => .wouldUpdateTop (.top "mds_summary.json") (mainData m cj cmj).length)).fs,
       [], [], []⟩ := by
    apply wic_skip
    rw [readOld_eq_of_files_eq (wic_files_other hne)]
    exact hnames
  refine ⟨?_, ?_, ?_⟩
  · intro p hp
    simp only [hrn, List.append_nil, List.nil_append] at hp
    exact wic_writes_sub hp
  · simp [hrn, wic_deletes]
  · intro q hq
    simp only [hrn]
    exact wic_files_other hq

/-! ### Claim C1 -/

/-- A one-entry MDS payload used for concrete runs. -/
def mdsFixture : Json := .obj [("entries", .arr
  [.obj [("metadataStatement", .obj
    [("aaguid", .str "aaaa"), ("description", .str "Key A")])]])]

/-- Claim C1 as stated is false: running the materializer twice in a row
over identical source data does not keep the second run write-free — the
`mds_summary.json` content-equality check finds the stored content unequal
(the created/updated counters flip from 1/0 to 0/1, and the timestamp is
embedded), so the second run writes that file even when the timestamp is
unchanged. -/
theorem claim_C1_counterexample :
    (runMain mdsFixture none none
        (runMain mdsFixture none none {} "T" false).fs "T" false).writes =
      [FPath.top "mds_summary.json"] ∧
    (runMain mdsFixture none none
        (runMain mdsFixture none none {} "T" false).fs "T" false).writes ≠ [] := by
  constructor
  · rfl
  · decide

/-- Claim C1 (amended): if the materializer is run twice in a row over
identical source data, the second run performs zero filesystem writes and
zero deletions for every per-AAGUID file and for `aaguids.json` — each of
those content-equality checks short-circuits — but `mds_summary.json` is
exempt: it is the only file the second run may write, because its content
embeds the created/updated counters and the run timestamp, which change
between the two runs. -/
theorem claim_C1 (m : Json) (cj cmj : Option Json) (fs : FS) (t1 t2 : String) :
    (∀ p ∈ (runMain m cj cmj (runMain m cj cmj fs t1 false).fs t2 false).writes,
       p = FPath.top "mds_summary.json") ∧
    (runMain m cj cmj (runMain m cj cmj fs t1 false).fs t2 false).deletes = [] ∧
    (∀ q, q ≠ FPath.top "mds_summary.json" →
       plookup (runMain m cj cmj (runMain m cj cmj fs t1 false).fs t2 false).fs.files q =
       plookup (runMain m cj cmj fs t1 false).fs.files q) :=
  second_run_core m cj cmj (runMain m cj cmj fs t1 false).fs t2
    (runMain_ensures m cj cmj fs t1) (runMain_baseDir m cj cmj fs t1)
    (runMain_names m cj cmj fs t1)

theorem claim_C1_witness :
    (runMain mdsFixture none none
        (runMain mdsFixture none none {} "A" false).fs "B" false).deletes = [] ∧
    (FPath.sub "aaaa" "name.txt" ≠ FPath.top "mds_summary.json" ∧
     plookup (runMain mdsFixture none none
         (runMain mdsFixture none none {} "A" false).fs "B" false).fs.files
         (FPath.sub "aaaa" "name.txt") =
       plookup (runMain mdsFixture none none {} "A" false).fs.files
         (FPath.sub "aaaa" "name.txt")) :=
  ⟨(claim_C1 mdsFixture none none {} "A" "B").2.1,
   by decide,
   (claim_C1 mdsFixture none none {} "A" "B").2.2
     (FPath.sub "aaaa" "name.txt") (by decide)⟩

/-! ### Claim C4 -/

/-- What `_http_get` actually sleeps before retrying attempt `a`: on a 429
the maximum of the parsed `Retry-After` and the exponential backoff (the
code comment calls the backoff "a small floor"), on any other failure just
the backoff. -/
def sleepRule (o : Nat → AttemptOutcome) (a : Nat) (w : Int) : Prop :=
  (∃ ra, o a = .status429 ra ∧ w = max (retryAfterWait ra) (backoff a)) ∨
  (∃ e, o a = .httpError e ∧ w = backoff a)

theorem http_get_loop_sleeps (o : Nat → AttemptOutcome) (maxA : Nat) :
    ∀ (fuel attempt : Nat) (base : Option Nat) (i : Nat) (w : Int),
      (http_get_loop o maxA fuel attempt base).1.get? i = some w →
      sleepRule o (attempt + i) w := by
  intro fuel
  induction fuel with
  | zero => intro attempt base i w h; simp [http_get_loop] at h
  | succ fuel ih =>
      intro attempt base i w h
      rcases ho : o attempt with ra | e | body
      · simp only [http_get_loop, ho] at h
        cases i with
        | zero =>
            simp only [List.get?] at h
            injection h with h
            exact .inl ⟨ra, by rw [Nat.add_zero]; exact ho, h.symm⟩
        | succ i =>
            simp only [List.get?] at h
            have := ih (attempt + 1) base i w h
            rw [show attempt + (i + 1) = attempt + 1 + i by omega]
            exact this
      · simp only [http_get_loop, ho] at h
        by_cases hge : attempt ≥ maxA
        · rw [if_pos hge] at h
          simp at h
        · rw [if_neg hge] at h
          cases i with
          | zero =>
              simp only [List.get?] at h
              injection h with h
              exact .inr ⟨e, by rw [Nat.add_zero]; exact ho, h.symm⟩
          | succ i =>
              simp only [List.get?] at h
              have := ih (attempt + 1) (some e) i w h
              rw [show attempt + (i + 1) = attempt + 1 + i by omega]
              exact this
      · simp only [http_get_loop, ho] at h
        simp at h

theorem http_get_loop_length (o : Nat → AttemptOutcome) (maxA : Nat) :
    ∀ (fuel attempt : Nat) (base : Option Nat),
      (http_get_loop o maxA fuel attempt base).1.length ≤ fuel := by
  intro fuel
  induction fuel with
  | zero => intro attempt base; simp [http_get_loop]
  | succ fuel ih =>
      intro attempt base
      rcases ho : o attempt with ra | e | body
      · simp only [http_get_loop, ho, List.length_cons]
        exact Nat.succ_le_succ (ih (attempt + 1) base)
      · simp only [http_get_loop, ho]
        by_cases hge : attempt ≥ maxA
        · rw [if_pos hge]
          simp
        · rw [if_neg hge]
          simp only [List.length_cons]
          exact Nat.succ_le_succ (ih (attempt + 1) (some e))
      · simp only [http_get_loop, ho]
        simp

theorem http_get_loop_exhaust (o : Nat → AttemptOutcome) (maxA : Nat) :
    ∀ (fuel attempt : Nat) (base : Option Nat),
      attempt + fuel = maxA + 1 →
      (∀ a, attempt ≤ a → a ≤ maxA → (o a).isSuccess = false) →
      (http_get_loop o maxA fuel attempt base).2 =
        .error (lastExcFrom o base attempt fuel) := by
  intro fuel
  induction fuel with
  | zero => intro attempt base _ _; rfl
  | succ fuel ih =>
      intro attempt base hcnt hns
      have hle : attempt ≤ maxA := by omega
      rcases ho : o attempt with ra | e | body
      · simp only [http_get_loop, ho]
        rw [ih (attempt + 1) base (by omega)
          (fun a h1 h2 => hns a (by omega) h2)]
        simp only [lastExcFrom, ho]
      · simp only [http_get_loop, ho]
        by_cases hge : attempt ≥ maxA
        · rw [if_pos hge]
          have hfuel : fuel = 0 := by omega
          subst hfuel
          simp [lastExcFrom, ho]
        · rw [if_neg hge]
          rw [ih (attempt + 1) (some e) (by omega)
            (fun a h1 h2 => hns a (by omega) h2)]
          simp only [lastExcFrom, ho]
      · exact absurd (hns attempt (Nat.le_refl _) hle) (by simp [ho, AttemptOutcome.isSuccess])

/-- Claim C4 as stated is false: with `Retry-After: 1` on every attempt the
fetcher does not sleep 1 second each time — from the second attempt on the
exponential backoff exceeds the header and wins (the code takes
`max(header, min(60, 2**(attempt-1)))`). -/
theorem claim_C4_counterexample :
    pyInt "1" = some 1 ∧
    (http_get (fun _ => .status429 (some "1"))).1 = [1, 2, 4, 8, 16] ∧
    (http_get (fun _ => .status429 (some "1"))).1.get? 1 = some 2 ∧
    (2 : Int) ≠ 1 := by
  refine ⟨rfl, rfl, rfl, by decide⟩

/-- Claim C4 (amended): on an HTTP 429 response the fetcher sleeps
`max(r, min(60, 2^(attempt-1)))` seconds, where `r` is the `Retry-After`
header's value when present and parseable as an integer and 0 otherwise
(the exponential backoff acts as a floor, so the header alone never sets a
shorter sleep); on any other failure it sleeps `min(60, 2^(attempt-1))`;
attempts are capped at 5; and when every attempt fails, the function
re-raises the most recently stored exception — a 429 stores none, so a run
whose failures were all 429s reaches the final `raise` with `last_exc`
still `None`. -/
theorem claim_C4 (o : Nat → AttemptOutcome) :
    (∀ i w, (http_get o).1.get? i = some w → sleepRule o (1 + i) w) ∧
    (http_get o).1.length ≤ 5 ∧
    ((∀ a, 1 ≤ a → a ≤ 5 → (o a).isSuccess = false) →
      (http_get o).2 = .error (lastExcFrom o none 1 5)) :=
  ⟨fun i w h => http_get_loop_sleeps o 5 5 1 none i w h,
   http_get_loop_length o 5 5 1 none,
   fun hns => http_get_loop_exhaust o 5 5 1 none rfl hns⟩

theorem claim_C4_witness :
    sleepRule (fun _ => .status429 (some "7")) (1 + 1) 7 ∧
    (http_get (fun _ => .status429 (some "7"))).1.length ≤ 5 ∧
    (http_get (fun a => if a = 3 then .httpError 9 else .status429 none)).2 =
      .error (lastExcFrom (fun a => if a = 3 then .httpError 9 else .status429 none) none 1 5) :=
  ⟨(claim_C4 (fun _ => .status429 (some "7"))).1 1 7 rfl,
   (claim_C4 (fun _ => .status429 (some "7"))).2.1,
   (claim_C4 (fun a => if a = 3 then .httpError 9 else .status429 none)).2.2
     (by decide)⟩

/-! ### Properties of the whitespace normalization -/

/-- No two adjacent plain spaces. -/
def noAdjB : List Char → Bool
  | c :: d :: rest => !(c = ' ' && d = ' ') && noAdjB (d :: rest)
  | _ => true

/-- A normalized single-line string: the only whitespace character left is
the plain space, spaces are never adjacent, and neither end is whitespace. -/
def goodLine (l : List Char) : Prop :=
  (∀ c ∈ l, isPySpace c = true → c = ' ') ∧
  noAdjB l = true ∧
  (∀ c, l.head? = some c → isPySpace c = false) ∧
  (∀ c, l.getLast? = some c → isPySpace c = false)

theorem collapseWs_only_space :
    ∀ (l : List Char) (b : Bool) (c : Char), c ∈ collapseWs b l →
      isPySpace c = true → c = ' ' := by
  intro l
  induction l with
  | nil => intro b c h; simp [collapseWs] at h
  | cons d ds ih =>
      intro b c h hsp
      by_cases hd : isPySpace d
      · cases b with
        | true =>
            simp only [collapseWs, hd, if_pos] at h
            exact ih true c (by simpa using h) hsp
        | false =>
            simp only [collapseWs, hd, if_pos] at h
            rcases List.mem_cons.mp (by simpa using h) with rfl | hm
            · rfl
            · exact ih true c hm hsp
      · simp only [collapseWs, hd] at h
        rw [if_neg (by simp [hd])] at h
        rcases List.mem_cons.mp h with rfl | hm
        · exact absurd hsp (by simp [hd])
        · exact ih false c hm hsp

theorem collapseWs_true_head :
    ∀ (l : List Char) (c : Char), (collapseWs true l).head? = some c →
      isPySpace c = false := by
  intro l
  induction l with
  | nil => intro c h; simp [collapseWs] at h
  | cons d ds ih =>
      intro c h
      by_cases hd : isPySpace d
      · simp only [collapseWs, hd, if_pos] at h
        exact ih c (by simpa using h)
      · simp only [collapseWs, hd] at h
        rw [if_neg (by simp [hd])] at h
        simp only [List.head?] at h
        injection h with h
        subst h
        simpa using hd

theorem collapseWs_noAdj :
    ∀ (l : List Char) (b : Bool), noAdjB (collapseWs b l) = true := by
  intro l
  induction l with
  | nil => intro b; rfl
  | cons d ds ih =>
      intro b
      by_cases hd : isPySpace d
      · cases b with
        | true =>
            simp only [collapseWs, hd, if_pos]
            exact ih true
        | false =>
            simp only [collapseWs, hd, if_pos]
            rcases hh : collapseWs true ds with _ | ⟨e, es⟩
            · rfl
            · have he : isPySpace e = false :=
                collapseWs_true_head ds e (by rw [hh]; rfl)
              have hne : (e = ' ') = False := by
                simp only [eq_iff_iff, iff_false]
                intro hcon
                rw [hcon] at he
                simp [isPySpace] at he
              show (!(' ' = ' ' && e = ' ') && noAdjB (e :: es)) = true
              have := ih true
              rw [hh] at this
              simp [hne, this]
      · simp only [collapseWs, hd]
        rw [if_neg (by simp [hd])]
        rcases hh : collapseWs false ds with _ | ⟨e, es⟩
        · rfl
        · have hdne : (d = ' ') = False := by
            simp only [eq_iff_iff, iff_false]
            intro hcon
            rw [hcon] at hd
            simp [isPySpace] at hd
          show (!(d = ' ' && e = ' ') && noAdjB (e :: es)) = true
          have := ih false
          rw [hh] at this
          simp [hdne, this]

theorem noAdjB_tail {c : Char} {cs : List Char} (h : noAdjB (c :: cs) = true) :
    noAdjB cs = true := by
  cases cs with
  | nil => rfl
  | cons d ds =>
      have h2 : (!(c = ' ' && d = ' ') && noAdjB (d :: ds)) = true := h
      rw [Bool.and_eq_true] at h2
      exact h2.2

theorem dropWhile_mem {p : Char → Bool} :
    ∀ {l : List Char} {c : Char}, c ∈ l.dropWhile p → c ∈ l := by
  intro l
  induction l with
  | nil => intro c h; simp at h
  | cons d ds ih =>
      intro c h
      by_cases hd : p d
      · rw [List.dropWhile_cons, if_pos hd] at h
        exact List.mem_cons_of_mem d (ih h)
      · rw [List.dropWhile_cons, if_neg hd] at h
        exact h

theorem dropWhile_noAdj {p : Char → Bool} :
    ∀ {l : List Char}, noAdjB l = true → noAdjB (l.dropWhile p) = true := by
  intro l
  induction l with
  | nil => intro h; exact h
  | cons d ds ih =>
      intro h
      by_cases hd : p d
      · rw [List.dropWhile_cons, if_pos hd]
        exact ih (noAdjB_tail h)
      · rw [List.dropWhile_cons, if_neg hd]
        exact h

theorem dropWhile_head {p : Char → Bool} :
    ∀ {l : List Char} {c : Char}, (l.dropWhile p).head? = some c → p c = false := by
  intro l
  induction l with
  | nil => intro c h; simp at h
  | cons d ds ih =>
      intro c h
      by_cases hd : p d
      · rw [List.dropWhile_cons, if_pos hd] at h
        exact ih h
      · rw [List.dropWhile_cons, if_neg hd] at h
        simp only [List.head?] at h
        injection h with h
        subst h
        simpa using hd

theorem rstripWs_shape (c : Char) (cs : List Char) :
    rstripWs (c :: cs) = [] ∨ rstripWs (c :: cs) = c :: rstripWs cs := by
  by_cases hcond : ((rstripWs cs).isEmpty && isPySpace c) = true
  · left
    show (if (rstripWs cs).isEmpty && isPySpace c then [] else c :: rstripWs cs) = []
    rw [if_pos hcond]
  · right
    show (if (rstripWs cs).isEmpty && isPySpace c then [] else c :: rstripWs cs) = _
    rw [if_neg hcond]

theorem rstripWs_mem : ∀ {l : List Char} {c : Char}, c ∈ rstripWs l → c ∈ l := by
  intro l
  induction l with
  | nil => intro c h; simp [rstripWs] at h
  | cons d ds ih =>
      intro c h
      rcases rstripWs_shape d ds with hs | hs
      · rw [hs] at h
        cases h
      · rw [hs] at h
        rcases List.mem_cons.mp h with rfl | hm
        · exact List.mem_cons_self _ _
        · exact List.mem_cons_of_mem d (ih hm)

theorem rstripWs_noAdj : ∀ {l : List Char}, noAdjB l = true →
    noAdjB (rstripWs l) = true := by
  intro l
  induction l with
  | nil => intro h; exact h
  | cons d ds ih =>
      intro h
      rcases rstripWs_shape d ds with hs | hs
      · rw [hs]
        rfl
      · rw [hs]
        cases ds with
        | nil => rfl
        | cons e es =>
            have hpair : (!(d = ' ' && e = ' ') && noAdjB (e :: es)) = true := h
            rw [Bool.and_eq_true] at hpair
            obtain ⟨hp, hrest⟩ := hpair
            rcases rstripWs_shape e es with hs2 | hs2
            · rw [hs2]
              rfl
            · rw [hs2]
              show (!(d = ' ' && e = ' ') && noAdjB (e :: rstripWs es)) = true
              have hn := ih hrest
              rw [hs2] at hn
              rw [Bool.and_eq_true]
              exact ⟨hp, hn⟩

theorem rstripWs_head : ∀ {l : List Char} {c : Char},
    (rstripWs l).head? = some c → l.head? = some c := by
  intro l
  induction l with
  | nil => intro c h; simp [rstripWs] at h
  | cons d ds _ =>
      intro c h
      rcases rstripWs_shape d ds with hs | hs
      · rw [hs] at h
        cases h
      · rw [hs] at h
        simpa using h

theorem rstripWs_last : ∀ {l : List Char} {c : Char},
    (rstripWs l).getLast? = some c → isPySpace c = false := by
  intro l
  induction l with
  | nil => intro c h; simp [rstripWs] at h
  | cons d ds ih =>
      intro c h
      rcases rstripWs_shape d ds with hs | hs
      · rw [hs] at h
        cases h
      · rw [hs] at h
        rcases he : rstripWs ds with _ | ⟨e, es⟩
        · rw [he] at h
          have hcd : d = c := by simpa using h
          subst hcd
          have hguard : ¬ ((rstripWs ds).isEmpty && isPySpace d) = true := by
            intro hcon
            have hnil : rstripWs (d :: ds) = [] := by
              show (if (rstripWs ds).isEmpty && isPySpace d then [] else _) = []
              rw [if_pos hcon]
            rw [hnil] at hs
            cases hs
          rw [he] at hguard
          simpa using hguard
        · rw [he] at h
          rw [List.getLast?_cons_cons] at h
          rw [← he] at h
          exact ih h

theorem toList_mk (l : List Char) : (String.mk l).toList = l := rfl

theorem normStr_good (s : String) : goodLine (normStr s).toList := by
  rw [show (normStr s).toList = rstripWs ((collapseWs false s.toList).dropWhile isPySpace)
    from rfl]
  refine ⟨?_, ?_, ?_, ?_⟩
  · intro c hc hsp
    exact collapseWs_only_space s.toList false c (dropWhile_mem (rstripWs_mem hc)) hsp
  · exact rstripWs_noAdj (dropWhile_noAdj (collapseWs_noAdj s.toList false))
  · intro c hc
    exact dropWhile_head (rstripWs_head hc)
  · intro c hc
    exact rstripWs_last hc

/-- Collapsing is the identity on already-normalized text. -/
theorem collapseWs_fix :
    ∀ (l : List Char), (∀ c ∈ l, isPySpace c = true → c = ' ') →
      noAdjB l = true →
      collapseWs false l = l ∧
      ((∀ c, l.head? = some c → c ≠ ' ') → collapseWs true l = l) := by
  intro l
  induction l with
  | nil => intro _ _; exact ⟨rfl, fun _ => rfl⟩
  | cons c cs ih =>
      intro hP1 hAdj
      have hP1t : ∀ d ∈ cs, isPySpace d = true → d = ' ' :=
        fun d hd => hP1 d (List.mem_cons_of_mem c hd)
      have hAdjt : noAdjB cs = true := noAdjB_tail hAdj
      obtain ⟨ihf, iht⟩ := ih hP1t hAdjt
      by_cases hc : isPySpace c
      · have hcsp : c = ' ' := hP1 c (List.mem_cons_self c cs) hc
        subst hcsp
        have hheadcs : ∀ d, cs.head? = some d → d ≠ ' ' := by
          intro d hd hcon
          subst hcon
          cases cs with
          | nil => cases hd
          | cons e es =>
              have he : e = ' ' := by simpa using hd
              subst he
              have : (!(' ' = ' ' && ' ' = ' ') && noAdjB (' ' :: es)) = true := hAdj
              simp at this
        constructor
        · show (if isPySpace ' ' then ' ' :: collapseWs true cs
              else ' ' :: collapseWs false cs) = ' ' :: cs
          rw [if_pos (by simp [isPySpace])]
          rw [iht hheadcs]
        · intro hhead
          exact absurd rfl (hhead ' ' rfl)
      · have hcne : c ≠ ' ' := by
          intro hcon
          subst hcon
          exact hc (by simp [isPySpace])
        constructor
        · show (if isPySpace c then _ else c :: collapseWs false cs) = c :: cs
          rw [if_neg hc, ihf]
        · intro _
          show (if isPySpace c then _ else c :: collapseWs false cs) = c :: cs
          rw [if_neg hc, ihf]

theorem dropWhile_fix {p : Char → Bool} {l : List Char}
    (h : ∀ c, l.head? = some c → p c = false) : l.dropWhile p = l := by
  cases l with
  | nil => rfl
  | cons c cs =>
      rw [List.dropWhile_cons, if_neg (by simp [h c rfl])]

theorem rstripWs_fix : ∀ {l : List Char},
    (∀ c, l.getLast? = some c → isPySpace c = false) → rstripWs l = l := by
  intro l
  induction l with
  | nil => intro _; rfl
  | cons c cs ih =>
      intro h
      cases cs with
      | nil =>
          have hc : isPySpace c = false := h c rfl
          show (if (rstripWs []).isEmpty && isPySpace c then [] else c :: rstripWs []) = [c]
          rw [if_neg (by simp [rstripWs, hc])]
          rfl
      | cons d ds =>
          have hrec : rstripWs (d :: ds) = d :: ds := by
            apply ih
            intro e he
            apply h
            rw [List.getLast?_cons_cons]
            exact he
          show (if (rstripWs (d :: ds)).isEmpty && isPySpace c then []
            else c :: rstripWs (d :: ds)) = c :: d :: ds
          rw [hrec]
          rw [if_neg (by simp)]

/-- Normalizing is idempotent: `_normalize_single_line` maps an
already-normalized string to itself. -/
theorem normStr_fix {l : List Char} (h : goodLine l) :
    normStr (String.mk l) = String.mk l := by
  obtain ⟨h1, h2, h3, h4⟩ := h
  unfold normStr
  rw [toList_mk]
  rw [(collapseWs_fix l h1 h2).1]
  unfold stripEnds
  rw [dropWhile_fix h3, rstripWs_fix h4]

theorem mk_toList (s : String) : String.mk s.toList = s := rfl

theorem normStr_idem (s : String) : normStr (normStr s) = normStr s := by
  have := normStr_fix (normStr_good s)
  rwa [mk_toList] at this

theorem goodLine_unknown : goodLine ("Unknown".toList) := by
  refine ⟨by decide, rfl, ?_, ?_⟩
  · intro c hc
    injection hc with hc
    subst hc
    rfl
  · intro c hc
    injection hc with hc
    subst hc
    rfl

theorem normalize_some_good {j : Json} {s : String}
    (h : normalize_single_line j = some s) : goodLine s.toList := by
  rcases j with _ | b | n | t | xs | kvs
  · simp [normalize_single_line] at h
  all_goals
    injection h with h
    rw [← h]
    exact normStr_good _

theorem choose_shape_good (j : Json) :
    goodLine ((match normalize_single_line j with
      | some s => s
      | none => "Unknown") : String).toList := by
  rcases hnn : normalize_single_line j with _ | s
  · simp only [hnn]
    exact goodLine_unknown
  · simp only [hnn]
    exact normalize_some_good hnn

theorem choose_name_good (aaguid : String) (items : List MetaItem)
    (cm cmm : Option (List (String × Json))) :
    goodLine (choose_name_for_aaguid aaguid items cm cmm).toList :=
  choose_shape_good _

theorem goodLine_no_newline {l : List Char} (h : goodLine l) :
    ∀ c ∈ l, c ≠ '\n' := by
  intro c hc hcon
  subst hcon
  have hs := h.1 '\n' hc (by rfl)
  exact absurd hs (by decide)

theorem paEnsures_name {fs : FS} {a : String} {items : List MetaItem}
    {cm cmm : Option (List (String × Json))}
    (h : paEnsures fs a items cm cmm) :
    fs.readOld (FPath.sub a "name.txt") =
      some (choose_name_for_aaguid a items cm cmm) := by
  have hm : ("name.txt", FileDecision.put (choose_name_for_aaguid a items cm cmm)) ∈
      decisionsFor a items cm cmm := by
    simp only [decisionsFor]
    exact List.mem_cons_self _ _
  exact h.2 _ hm

/-! ### Claim C9 -/

/-- The single MetaItem `extract_aaguids` builds from `mdsFixture`. -/
def mdsFixtureItem : MetaItem :=
  ⟨"Key A", .str "Key A",
   .obj [("aaguid", .str "aaaa"), ("description", .str "Key A")],
   .obj [("metadataStatement",
     .obj [("aaguid", .str "aaaa"), ("description", .str "Key A")])]⟩

/-- Claim C9 (confirmed): every resolved display name is
whitespace-normalized before use — all whitespace runs collapse to a single
space (the only whitespace character left is the plain space, never
doubled) and both ends are trimmed; `"Foo\n  Bar\t"` resolves to
`"Foo Bar"`; the resolved name never contains a newline; and after a run
every processed AAGUID's `name.txt` holds exactly the resolved name, so no
name file contains an embedded newline. -/
theorem claim_C9 :
    (∀ s : String, goodLine (normStr s).toList) ∧
    normStr "Foo\n  Bar\t" = "Foo Bar" ∧
    (∀ (aaguid : String) (items : List MetaItem)
       (cm cmm : Option (List (String × Json))),
       goodLine (choose_name_for_aaguid aaguid items cm cmm).toList ∧
       ∀ c ∈ (choose_name_for_aaguid aaguid items cm cmm).toList, c ≠ '\n') ∧
    (∀ (m : Json) (cj cmj : Option Json) (fs : FS) (now : String),
       ∀ kv ∈ mainData m cj cmj,
         (runMain m cj cmj fs now false).fs.readOld (FPath.sub kv.1 "name.txt") =
           some (choose_name_for_aaguid kv.1 kv.2
             (parse_combined_map cj) (parse_c_mds_map cmj))) := by
  refine ⟨normStr_good, rfl, ?_, ?_⟩
  · intro aaguid items cm cmm
    exact ⟨choose_name_good aaguid items cm cmm,
      goodLine_no_newline (choose_name_good aaguid items cm cmm)⟩
  · intro m cj cmj fs now kv hkv
    exact paEnsures_name (runMain_ensures m cj cmj fs now kv hkv)

theorem claim_C9_witness :
    (("aaaa", [mdsFixtureItem]) ∈ mainData mdsFixture none none) ∧
    (runMain mdsFixture none none {} "T" false).fs.readOld
        (FPath.sub "aaaa" "name.txt") =
      some (choose_name_for_aaguid "aaaa" [mdsFixtureItem] none none) ∧
    ('K' ∈ (choose_name_for_aaguid "aaaa" [mdsFixtureItem] none none).toList →
      'K' ≠ '\n') := by
  have hmem : ("aaaa", [mdsFixtureItem]) ∈ mainData mdsFixture none none := by
    rw [show mainData mdsFixture none none = [("aaaa", [mdsFixtureItem])] from rfl]
    exact List.mem_singleton.mpr rfl
  refine ⟨hmem, ?_, ?_⟩
  · have := claim_C9.2.2.2 mdsFixture none none {} "T" ("aaaa", [mdsFixtureItem]) hmem
    rw [show parse_combined_map none = none from rfl,
        show parse_c_mds_map none = none from rfl] at this
    exact this
  · intro hK
    exact (claim_C9.2.2.1 "aaaa" [mdsFixtureItem] none none).2 'K' hK

/-! ### Claim C2 -/

theorem find?_append (p : Json → Bool) :
    ∀ (l1 l2 : List Json), (l1 ++ l2).find? p =
      match l1.find? p with
      | some v => some v
      | none => l2.find? p := by
  intro l1 l2
  induction l1 with
  | nil => simp
  | cons a as ih =>
      by_cases ha : p a
      · simp [List.find?_cons, ha]
      · simp only [List.cons_append, List.find?_cons, ha]
        simpa [ha] using ih

theorem friendlyFromLocales_eq (fnkvs : List (String × Json)) :
    ∀ (langs : List String),
      friendlyFromLocales fnkvs langs = (langs.map (pyGet fnkvs)).find? Json.truthy := by
  intro langs
  induction langs with
  | nil => rfl
  | cons lang rest ih =>
      by_cases h : (pyGet fnkvs lang).truthy
      · simp [friendlyFromLocales, List.find?_cons, h]
      · simp only [friendlyFromLocales, if_neg h]
        simp only [List.map_cons, List.find?_cons]
        rw [show (Json.truthy (pyGet fnkvs lang)) = false by simpa using h]
        exact ih

theorem firstTruthyValue_eq :
    ∀ (l : List (String × Json)),
      firstTruthyValue l = (l.map Prod.snd).find? Json.truthy := by
  intro l
  induction l with
  | nil => rfl
  | cons kv rest ih =>
      obtain ⟨k, v⟩ := kv
      by_cases h : v.truthy
      · simp [firstTruthyValue, List.find?_cons, h]
      · simp only [firstTruthyValue, if_neg h]
        simp only [List.map_cons, List.find?_cons]
        rw [show (Json.truthy v) = false by simpa using h]
        exact ih

theorem normalize_of_truthy {v : Json} (h : v.truthy = true) :
    normalize_single_line v = some (normStr (pyStr v)) := by
  rcases v with _ | b | n | t | xs | kvs
  · simp [Json.truthy] at h
  all_goals rfl

/-- The friendlyNames candidates in the (amended) claim's preference
order: `en-US`, `en`, `en-GB`, then every value keyed in sorted order. -/
def localeCandidates (fnkvs : List (String × Json)) : List Json :=
  (["en-US", "en", "en-GB"].map (pyGet fnkvs)) ++ (sortBy Prod.fst fnkvs).map Prod.snd

/-- The c-MDS friendly-name stage as the amended claim words it: the first
truthy friendlyNames candidate, normalized; only when the (non-empty)
friendlyNames mapping has no truthy value at all does the plain
`friendlyName`-or-`name` chain apply. -/
def specFriendlyAmended (entry : Option Json) : Option String :=
  match entry with
  | some (.obj kvs) =>
      let plain : Option String :=
        match [pyGet kvs "friendlyName", pyGet kvs "name"].find? Json.truthy with
        | some v => some (normStr (pyStr v))
        | none => none
      let viaLocales : Option Json :=
        match alookup kvs "friendlyNames" with
        | some (.obj fnkvs) =>
            if fnkvs.isEmpty then none
            else (localeCandidates fnkvs).find? Json.truthy
        | _ => none
      match viaLocales with
      | some v => some (normStr (pyStr v))
      | none => plain
  | _ => none

theorem find?_some_truthy {l : List Json} {v : Json}
    (h : l.find? Json.truthy = some v) : v.truthy = true :=
  List.find?_some h

theorem plain_stage_eq (kvs : List (String × Json)) :
    (if (if (pyGet kvs "friendlyName").truthy = true then pyGet kvs "friendlyName"
         else pyGet kvs "name").truthy = true then
       match normalize_single_line
         (if (pyGet kvs "friendlyName").truthy = true then pyGet kvs "friendlyName"
          else pyGet kvs "name") with
       | some s => some s
       | none => none
     else none) =
    (match List.find? Json.truthy [pyGet kvs "friendlyName", pyGet kvs "name"] with
     | some v => some (normStr (pyStr v))
     | none => none) := by
  by_cases h1 : (pyGet kvs "friendlyName").truthy = true
  · simp [h1, List.find?_cons, normalize_of_truthy h1]
  · by_cases h2 : (pyGet kvs "name").truthy = true
    · simp [h1, h2, List.find?_cons, normalize_of_truthy h2]
    · simp [h1, h2, List.find?_cons]

theorem friendly_eq_specAmended (entry : Option Json) :
    friendly_name_from_entry entry = specFriendlyAmended entry := by
  rcases entry with _ | j
  · rfl
  rcases j with _ | b | n | t | xs | kvs
  · rfl
  · rfl
  · rfl
  · rfl
  · rfl
  rcases halk : alookup kvs "friendlyNames" with _ | fj
  · simp only [friendly_name_from_entry, specFriendlyAmended, halk]
    exact plain_stage_eq kvs
  · rcases fj with _ | b2 | n2 | t2 | xs2 | fnkvs
    · simp only [friendly_name_from_entry, specFriendlyAmended, halk]
      exact plain_stage_eq kvs
    · simp only [friendly_name_from_entry, specFriendlyAmended, halk]
      exact plain_stage_eq kvs
    · simp only [friendly_name_from_entry, specFriendlyAmended, halk]
      exact plain_stage_eq kvs
    · simp only [friendly_name_from_entry, specFriendlyAmended, halk]
      exact plain_stage_eq kvs
    · simp only [friendly_name_from_entry, specFriendlyAmended, halk]
      exact plain_stage_eq kvs
    · by_cases hemp : fnkvs.isEmpty = true
      · simp only [friendly_name_from_entry, specFriendlyAmended, halk, hemp,
          Bool.not_true, Bool.false_eq_true, if_false, if_true]
        exact plain_stage_eq kvs
      · have hempf : fnkvs.isEmpty = false := by
          simpa using hemp
        have hfind : (localeCandidates fnkvs).find? Json.truthy =
            match friendlyFromLocales fnkvs ["en-US", "en", "en-GB"] with
            | some v => some v
            | none => firstTruthyValue (sortBy Prod.fst fnkvs) := by
          unfold localeCandidates
          rw [find?_append, friendlyFromLocales_eq, firstTruthyValue_eq]
        rcases hl : friendlyFromLocales fnkvs ["en-US", "en", "en-GB"] with _ | v
        · rcases hs : firstTruthyValue (sortBy Prod.fst fnkvs) with _ | w
          · simp only [friendly_name_from_entry, specFriendlyAmended, halk, hempf,
              Bool.not_false, Bool.false_eq_true, if_false, if_true, hfind, hl, hs]
            exact plain_stage_eq kvs
          · have hw : w.truthy = true := by
              rw [firstTruthyValue_eq] at hs
              exact List.find?_some hs
            simp only [friendly_name_from_entry, specFriendlyAmended, halk, hempf,
              Bool.not_false, Bool.false_eq_true, if_false, if_true, hfind, hl, hs,
              normalize_of_truthy hw]
        · have hv : v.truthy = true := by
            rw [friendlyFromLocales_eq] at hl
            exact List.find?_some hl
          simp only [friendly_name_from_entry, specFriendlyAmended, halk, hempf,
            Bool.not_false, Bool.false_eq_true, if_false, if_true, hfind, hl,
            normalize_of_truthy hv]

theorem specFriendly_norm_fix {e : Option Json} {s : String}
    (h : specFriendlyAmended e = some s) : normStr s = s := by
  rcases e with _ | j
  · exact Option.noConfusion h
  rcases j with _ | b | n | t | xs | kvs
  · exact Option.noConfusion h
  · exact Option.noConfusion h
  · exact Option.noConfusion h
  · exact Option.noConfusion h
  · exact Option.noConfusion h
  simp only [specFriendlyAmended] at h
  split at h
  · injection h with h
    rw [← h]
    exact normStr_idem _
  · split at h
    · injection h with h
      rw [← h]
      exact normStr_idem _
    · exact Option.noConfusion h

theorem friendly_norm_fix {e : Option Json} {s : String}
    (h : friendly_name_from_entry e = some s) : normStr s = s :=
  specFriendly_norm_fix (friendly_eq_specAmended e ▸ h)

/-- The name precedence exactly as claim C2 must be amended: the combined
name if truthy; else the first truthy `friendlyNames` candidate (locale
preference `en-US`, `en`, `en-GB`, then all values by sorted key) or, when
the mapping has no truthy value, the plain `friendlyName`-or-`name` chain —
but this whole c-MDS stage contributes only when its selected value is
non-empty after whitespace normalization, otherwise the MDS-derived name is
used (so a whitespace-only friendly name suppresses the remaining c-MDS
fallbacks); else the MDS-derived name; else `"Unknown"`. -/
def specChooseNameAmended (aaguid : String) (items : List MetaItem)
    (cm cmm : Option (List (String × Json))) : String :=
  let mdsName : String := match items with
    | [] => "Unknown"
    | it :: _ => it.name
  let level1 : Option Json :=
    match entryFor cm aaguid with
    | some (.obj kvs) =>
        if (pyGet kvs "name").truthy then some (pyGet kvs "name") else none
    | _ => none
  match level1 with
  | some v => normStr (pyStr v)
  | none =>
      match specFriendlyAmended (entryFor cmm aaguid) with
      | some s => if s ≠ "" then s else normStr mdsName
      | none => normStr mdsName

/-- The name precedence exactly as claim C2 words it: combined name if
present and non-empty; else the preferred `friendlyNames` value (`en-US`,
`en`, `en-GB`, then lexicographically-smallest remaining key); else the
plain `friendlyName`/`name` field; else the MDS-derived name; else
`"Unknown"` — each resolved value whitespace-normalized. -/
def specChooseNameClaim (aaguid : String) (items : List MetaItem)
    (cm cmm : Option (List (String × Json))) : String :=
  let mdsName : String := match items with
    | [] => "Unknown"
    | it :: _ => it.name
  let level1 : Option Json :=
    match entryFor cm aaguid with
    | some (.obj kvs) =>
        if (pyGet kvs "name").truthy then some (pyGet kvs "name") else none
    | _ => none
  match level1 with
  | some v => normStr (pyStr v)
  | none =>
      let viaLocales : Option Json :=
        match entryFor cmm aaguid with
        | some (.obj kvs) =>
            match alookup kvs "friendlyNames" with
            | some (.obj fnkvs) => (localeCandidates fnkvs).find? Json.truthy
            | _ => none
        | _ => none
      match viaLocales with
      | some v => normStr (pyStr v)
      | none =>
          let plain : Option Json :=
            match entryFor cmm aaguid with
            | some (.obj kvs) =>
                [pyGet kvs "friendlyName", pyGet kvs "name"].find? Json.truthy
            | _ => none
          match plain with
          | some v => normStr (pyStr v)
          | none => normStr mdsName

theorem choose_eq_specAmended (aaguid : String) (items : List MetaItem)
    (cm cmm : Option (List (String × Json))) :
    choose_name_for_aaguid aaguid items cm cmm =
      specChooseNameAmended aaguid items cm cmm := by
  unfold choose_name_for_aaguid specChooseNameAmended
  simp only [friendly_eq_specAmended]
  have hCMds : ∀ mdsName : String,
      (match normalize_single_line
        (match specFriendlyAmended (entryFor cmm aaguid) with
         | some c_name => if c_name ≠ "" then Json.str c_name else Json.str mdsName
         | none => Json.str mdsName) with
       | some s => s
       | none => "Unknown") =
      (match specFriendlyAmended (entryFor cmm aaguid) with
       | some s => if s ≠ "" then s else normStr mdsName
       | none => normStr mdsName) := by
    intro mdsName
    rcases hf : specFriendlyAmended (entryFor cmm aaguid) with _ | c
    · rfl
    · by_cases hc : c ≠ ""
      · simp only [if_pos hc]
        show normStr c = c
        exact specFriendly_norm_fix hf
      · simp only [if_neg hc]
        simp [normalize_single_line, pyStr]
  rcases hce : entryFor cm aaguid with _ | ce
  · simp only [hce]
    exact hCMds _
  rcases ce with _ | b | n | t | xs | kvs
  · simp only [hce]
    exact hCMds _
  · simp only [hce]
    exact hCMds _
  · simp only [hce]
    exact hCMds _
  · simp only [hce]
    exact hCMds _
  · simp only [hce]
    exact hCMds _
  simp only [hce]
  by_cases hname : (pyGet kvs "name").truthy = true
  · simp only [if_pos hname, normalize_of_truthy hname]
  · simp only [if_neg hname]
    exact hCMds _

def cexC2Items : List MetaItem := [⟨"FromMDS", Json.null, Json.null, Json.null⟩]

def cexC2CMds : Option (List (String × Json)) :=
  some [("aa", Json.obj [("friendlyNames", Json.obj [("en-US", Json.str " ")]),
                         ("friendlyName", Json.str "GOOD")])]

/-- C2 counterexample: a c-MDS entry whose preferred `friendlyNames` value is
whitespace-only makes the code fall back to the MDS-derived name (the early
return from the locale scan suppresses the plain `friendlyName` fallback),
while the claim's literal precedence would resolve the whitespace-only value
to the empty string. -/
theorem claim_C2_counterexample :
    choose_name_for_aaguid "aa" cexC2Items none cexC2CMds = "FromMDS" ∧
    specChooseNameClaim "aa" cexC2Items none cexC2CMds = "" ∧
    "FromMDS" ≠ "" := ⟨rfl, rfl, by decide⟩

/-- C2 (amended): for every AAGUID, item list and pair of secondary maps,
`_choose_name_for_aaguid` returns exactly the amended precedence: the truthy
combined `name`; else the first truthy `friendlyNames` candidate (en-US, en,
en-GB, then sorted keys) or, absent any, the truthy `friendlyName`-or-`name`
value — this c-MDS stage counting only when non-empty after normalization,
otherwise yielding the MDS-derived name; else the MDS-derived first item name;
else `"Unknown"`; the result whitespace-normalized. -/
theorem claim_C2 (aaguid : String) (items : List MetaItem)
    (cm cmm : Option (List (String × Json))) :
    choose_name_for_aaguid aaguid items cm cmm =
      specChooseNameAmended aaguid items cm cmm :=
  choose_eq_specAmended aaguid items cm cmm

/-! ### C3: icon precedence -/

/-- The field list the icon scan walks for one item:
`ms = item.get('metadataStatement', \x7b\x7d) or \x7b\x7d` is a dict for every
item the script builds. -/
def stmtFields (item : MetaItem) : List (String × Json) :=
  match item.metadataStatement with
  | .obj kvs => kvs
  | _ => []

/-- The claim's key test: the field key case-insensitively equals `icon`. -/
def isIconKey (kv : String × Json) : Bool :=
  pyLower kv.1 == "icon"

/-- The metadata-statement stage exactly as claim C3 words it: flatten every
item's statement fields in item order, take the first field whose key
case-insensitively equals `icon`, and convert its value (list: first element;
mapping: compact JSON; otherwise stringified). -/
def claimIconScan (items : List MetaItem) : Option String :=
  ((items.map stmtFields).flatten.find? isIconKey).map (fun kv => iconValue kv.2)

/-- The full icon precedence as claim C3 words it: the c-MDS entry's truthy
`icon` field, else the flattened first-match scan. -/
def claimIconOf (items : List MetaItem) (c_mds_entry : Option Json) :
    Option String :=
  match c_mds_entry with
  | some (.obj kvs) =>
      if (pyGet kvs "icon").truthy then some (pyStr (pyGet kvs "icon"))
      else claimIconScan items
  | _ => claimIconScan items

theorem find?_appendGen {α : Type} (p : α → Bool) :
    ∀ (l1 l2 : List α), (l1 ++ l2).find? p =
      match l1.find? p with
      | some v => some v
      | none => l2.find? p := by
  intro l1 l2
  induction l1 with
  | nil => simp
  | cons a as ih =>
      by_cases ha : p a
      · simp [List.find?_cons, ha]
      · simp only [List.cons_append, List.find?_cons, ha]
        simpa [ha] using ih

theorem iconFromStatement_eq (fields : List (String × Json)) :
    iconFromStatement fields =
      (fields.find? isIconKey).map (fun kv => iconValue kv.2) := by
  induction fields with
  | nil => rfl
  | cons kv rest ih =>
      by_cases h : pyLower kv.1 = "icon"
      · simp [iconFromStatement, h, List.find?_cons, isIconKey]
      · simp [iconFromStatement, h, List.find?_cons, isIconKey, ih]

theorem iconFromItems_eq (items : List MetaItem) :
    iconFromItems items = claimIconScan items := by
  induction items with
  | nil => rfl
  | cons item rest ih =>
      unfold iconFromItems claimIconScan
      simp only [List.map_cons, List.flatten_cons, find?_appendGen]
      rw [show (match item.metadataStatement with
            | Json.obj kvs => kvs
            | _ => []) = stmtFields item from rfl]
      rw [iconFromStatement_eq]
      rcases hf : (stmtFields item).find? isIconKey with _ | kv
      · simpa [hf, claimIconScan] using ih
      · simp [hf]

theorem first_icon_eq_claim (items : List MetaItem) (c_mds_entry : Option Json) :
    first_icon_value items c_mds_entry = claimIconOf items c_mds_entry := by
  unfold first_icon_value claimIconOf
  rcases c_mds_entry with _ | e
  · simpa using iconFromItems_eq items
  rcases e with _ | b | n | t | xs | kvs
  · simpa using iconFromItems_eq items
  · simpa using iconFromItems_eq items
  · simpa using iconFromItems_eq items
  · simpa using iconFromItems_eq items
  · simpa using iconFromItems_eq items
  by_cases hi : (pyGet kvs "icon").truthy = true
  · simp [hi]
  · simpa [hi] using iconFromItems_eq items

theorem fileStep_writes_put {fs : FS} {a : String} {dry : Bool}
    {fd : String × FileDecision} {q : FPath}
    (h : q ∈ (fileStep a dry fs fd).writes) :
    q = FPath.sub a fd.1 ∧ ∃ s, fd.2 = FileDecision.put s := by
  rcases fd with ⟨f, d⟩
  cases d with
  | skip => simp [fileStep] at h
  | del => simp [fileStep, die_writes] at h
  | put s => exact ⟨wic_writes_sub h, s, rfl⟩

theorem runSteps_writes_put {a : String} {dry : Bool} {q : FPath} :
    ∀ {fds : List (String × FileDecision)} {fs : FS},
      q ∈ (runSteps a dry fs fds).writes →
      ∃ fd ∈ fds, q = FPath.sub a fd.1 ∧ ∃ s, fd.2 = FileDecision.put s := by
  intro fds
  induction fds with
  | nil => intro fs h; cases h
  | cons fd rest ih =>
      intro fs h
      rcases List.mem_append.mp h with h1 | h2
      · exact ⟨fd, List.mem_cons_self _ _, fileStep_writes_put h1⟩
      · rcases ih h2 with ⟨e, he, hq, hs⟩
        exact ⟨e, List.mem_cons_of_mem _ he, hq, hs⟩

theorem pa_icon_none {fs : FS} {a : String} {items : List MetaItem}
    {cm cmm : Option (List (String × Json))}
    (h : first_icon_value items (entryFor cmm a) = none) :
    iconPath a ∉ (processAaguid fs a items cm cmm false).writes ∧
    staleOk (processAaguid fs a items cm cmm false).fs (iconPath a) = true := by
  constructor
  · intro hw
    rcases runSteps_writes_put hw with ⟨fd, hfd, hq, s, hput⟩
    have hf : fd.1 = "icon.txt" := by
      have := hq
      unfold iconPath at this
      injection this with h1 h2
      exact h2.symm
    simp only [decisionsFor, List.mem_cons, List.not_mem_nil, or_false] at hfd
    rcases hfd with h1 | h1 | h1 | h1 | h1 | h1 <;> rw [h1] at hf hput <;>
      simp_all [h]
  · have hmem : ("icon.txt", FileDecision.del) ∈ decisionsFor a items cm cmm := by
      simp [decisionsFor, h]
    exact (pa_post fs a items cm cmm).2 _ hmem

theorem runSteps_deletes_cons (a : String) (dry : Bool) (fs : FS)
    (fd : String × FileDecision) (rest : List (String × FileDecision)) :
    (runSteps a dry fs (fd :: rest)).deletes =
      (fileStep a dry fs fd).deletes ++
        (runSteps a dry (fileStep a dry fs fd).fs rest).deletes := rfl

theorem pa_icon_none_deleted {fs : FS} {a : String} {items : List MetaItem}
    {cm cmm : Option (List (String × Json))} {nd : FileNode}
    (h : first_icon_value items (entryFor cmm a) = none)
    (hl : plookup fs.files (iconPath a) = some nd) (hdf : nd.deleteFails = false) :
    iconPath a ∈ (processAaguid fs a items cm cmm false).deletes := by
  have hne1 : iconPath a ≠ FPath.sub a "name.txt" := by
    intro hEq
    injection hEq with h1 h2
    exact absurd h2 (by decide)
  have hne2 : iconPath a ≠ FPath.sub a "metadata.json" := by
    intro hEq
    injection hEq with h1 h2
    exact absurd h2 (by decide)
  unfold processAaguid
  simp only [decisionsFor, h]
  rw [runSteps_deletes_cons, runSteps_deletes_cons, runSteps_deletes_cons]
  apply List.mem_append.mpr
  refine .inr (List.mem_append.mpr (.inr (List.mem_append.mpr (.inl ?_))))
  rw [show (fileStep a false
      (fileStep a false
        (fileStep a false (fs.mkdirSub a)
          ("name.txt",
            FileDecision.put (choose_name_for_aaguid a items cm cmm))).fs
        ("metadata.json",
          FileDecision.put
            (dumpsSortedIndent2 (Json.arr (items.map MetaItem.toJson))))).fs
      ("icon.txt", FileDecision.del)) =
    deleteIfExists
      (fileStep a false
        (fileStep a false (fs.mkdirSub a)
          ("name.txt",
            FileDecision.put (choose_name_for_aaguid a items cm cmm))).fs
        ("metadata.json",
          FileDecision.put
            (dumpsSortedIndent2 (Json.arr (items.map MetaItem.toJson))))).fs
      (FPath.sub a "icon.txt") false from rfl]
  have hl2 : plookup (fileStep a false
      (fileStep a false (fs.mkdirSub a)
        ("name.txt",
          FileDecision.put (choose_name_for_aaguid a items cm cmm))).fs
      ("metadata.json",
        FileDecision.put
          (dumpsSortedIndent2 (Json.arr (items.map MetaItem.toJson))))).fs.files
      (iconPath a) = some nd := by
    rw [fileStep_files_other hne2, fileStep_files_other hne1, mkdirSub_files]
    exact hl
  rw [show FPath.sub a "icon.txt" = iconPath a from rfl]
  simp [deleteIfExists, FS.exists?, hl2, hdf]

def fsC3 : FS := ⟨true, ["aa"], [(iconPath "aa", ⟨"old", false, false⟩)]⟩

/-- C3: the resolved icon value is the c-MDS entry's truthy `icon` field,
else the first metadata-statement field over all items (item order, first
match wins) whose key case-insensitively equals `icon`, a list contributing
its first element, a mapping its compact-JSON serialization, anything else
its stringification; when no source resolves, `icon.txt` is not written and
an existing `icon.txt` is deleted (best effort: it is gone afterwards unless
its unlink raised, and the unlink is genuinely performed whenever it can
succeed). -/
theorem claim_C3 :
    (∀ (items : List MetaItem) (e : Option Json),
        first_icon_value items e = claimIconOf items e) ∧
    (∀ (fs : FS) (a : String) (items : List MetaItem)
        (cm cmm : Option (List (String × Json))),
        first_icon_value items (entryFor cmm a) = none →
        iconPath a ∉ (processAaguid fs a items cm cmm false).writes ∧
        staleOk (processAaguid fs a items cm cmm false).fs (iconPath a) = true ∧
        (∀ nd, plookup fs.files (iconPath a) = some nd → nd.deleteFails = false →
          iconPath a ∈ (processAaguid fs a items cm cmm false).deletes)) :=
  ⟨first_icon_eq_claim,
   fun fs a items cm cmm h =>
     ⟨(pa_icon_none h).1, (pa_icon_none h).2,
      fun _ hl hdf => pa_icon_none_deleted h hl hdf⟩⟩

/-- C3 witness: an AAGUID with no icon source and a stale `icon.txt` on
disk; the file is not written and ends up deleted. -/
theorem claim_C3_witness :
    first_icon_value [] (entryFor none "aa") = none ∧
    iconPath "aa" ∉ (processAaguid fsC3 "aa" [] none none false).writes ∧
    staleOk (processAaguid fsC3 "aa" [] none none false).fs (iconPath "aa") = true ∧
    iconPath "aa" ∈ (processAaguid fsC3 "aa" [] none none false).deletes :=
  ⟨rfl,
   (claim_C3.2 fsC3 "aa" [] none none rfl).1,
   (claim_C3.2 fsC3 "aa" [] none none rfl).2.1,
   (claim_C3.2 fsC3 "aa" [] none none rfl).2.2 ⟨"old", false, false⟩ rfl rfl⟩

/-! ### C5: dry-run behaviour -/

theorem format_for_log_le (t : Option String) :
    (format_for_log t).toList.length ≤ 140 := by
  rcases t with _ | s
  · decide
  · have he : format_for_log (some s) =
        (if (normStr s).toList.length > 140
         then String.mk ((normStr s).toList.take 137) ++ "..."
         else normStr s) := rfl
    rw [he]
    by_cases h : (normStr s).toList.length > 140
    · rw [if_pos h]
      have ht : (String.mk ((normStr s).toList.take 137) ++ "...").toList
          = (normStr s).toList.take 137 ++ "...".toList := rfl
      have h3 : ("...".toList).length = 3 := rfl
      rw [ht, List.length_append, List.length_take, h3]
      omega
    · rw [if_neg h]
      omega

/-- The property claim C5 asserts of the dry-run name logs: both previews
are capped at 140 characters; events other than a name update carry no
preview. -/
def nameLogOk : LogEvent → Prop
  | .wouldUpdateName _ _ _ po pn =>
      po.toList.length ≤ 140 ∧ pn.toList.length ≤ 140
  | _ => True

theorem evFor_nameLogOk (a f : String) (old : Option String) (new : String) :
    nameLogOk (evFor a f old new) := by
  unfold evFor
  by_cases h : f = "name.txt"
  · rw [if_pos h]
    exact ⟨format_for_log_le old, format_for_log_le (some new)⟩
  · rw [if_neg h]
    trivial

theorem wic_logs_nameOk {fs : FS} {p : FPath} {new : String} {dry : Bool}
    {a f : String} {ev : LogEvent}
    (h : ev ∈ (writeIfChanged fs p new dry (evFor a f)).logs) : nameLogOk ev := by
  rcases @wic_logs fs p new dry (evFor a f) with hl | ⟨old, hl⟩
  · rw [hl] at h
    cases h
  · rw [hl] at h
    simp only [List.mem_singleton] at h
    rw [h]
    exact evFor_nameLogOk a f old new

theorem die_logs (fs : FS) (p : FPath) (dry : Bool) :
    (deleteIfExists fs p dry).logs = [] ∨
    (deleteIfExists fs p dry).logs = [.removedStale p] := by
  rcases hl : plookup fs.files p with _ | nd
  · cases dry <;> simp [deleteIfExists, FS.exists?, hl]
  · by_cases hdf : nd.deleteFails <;> cases dry <;>
      simp [deleteIfExists, FS.exists?, hl, hdf]

theorem fileStep_logs_nameOk {fs : FS} {a : String} {dry : Bool}
    {fd : String × FileDecision} {ev : LogEvent}
    (h : ev ∈ (fileStep a dry fs fd).logs) : nameLogOk ev := by
  rcases fd with ⟨f, d⟩
  cases d with
  | skip => cases h
  | del =>
      rcases die_logs fs (.sub a f) dry with hl | hl
      · rw [show (fileStep a dry fs (f, FileDecision.del)).logs =
            (deleteIfExists fs (.sub a f) dry).logs from rfl, hl] at h
        cases h
      · rw [show (fileStep a dry fs (f, FileDecision.del)).logs =
            (deleteIfExists fs (.sub a f) dry).logs from rfl, hl] at h
        simp only [List.mem_singleton] at h
        rw [h]
        trivial
  | put s => exact wic_logs_nameOk h

theorem runSteps_logs_nameOk {a : String} {dry : Bool} {ev : LogEvent} :
    ∀ {fds : List (String × FileDecision)} {fs : FS},
      ev ∈ (runSteps a dry fs fds).logs → nameLogOk ev := by
  intro fds
  induction fds with
  | nil => intro fs h; cases h
  | cons fd rest ih =>
      intro fs h
      rcases List.mem_append.mp h with h1 | h2
      · exact fileStep_logs_nameOk h1
      · exact ih h2

theorem processAll_logs_nameOk {cm cmm : Option (List (String × Json))}
    {dry : Bool} {ev : LogEvent} :
    ∀ {data : List (String × List MetaItem)} {fs : FS},
      ev ∈ (processAll fs data cm cmm dry).1.logs → nameLogOk ev := by
  intro data
  induction data with
  | nil => intro fs h; cases h
  | cons kv rest ih =>
      intro fs h
      obtain ⟨a, items⟩ := kv
      rcases List.mem_append.mp h with h1 | h2
      · exact runSteps_logs_nameOk h1
      · exact ih h2

theorem tailLog_nameOk {data : List (String × List MetaItem)}
    {cm cmm : Option (List (String × Json))} {ev : LogEvent}
    (h : ev ∈ tailLog data cm cmm) : nameLogOk ev := by
  rcases hg : data.getLast? with _ | ⟨a, items⟩
  · simp [tailLog, hg] at h
  · simp [tailLog, hg] at h
    rw [h]
    trivial

theorem tailLog_no_removed {data : List (String × List MetaItem)}
    {cm cmm : Option (List (String × Json))} {q : FPath}
    (h : LogEvent.removedStale q ∈ tailLog data cm cmm) : False := by
  rcases hg : data.getLast? with _ | ⟨a, items⟩
  · simp [tailLog, hg] at h
  · simp [tailLog, hg] at h

theorem wic_top_nameOk {fs : FS} {p : FPath} {new : String} {dry : Bool}
    {g : FPath} {k : Nat} {ev : LogEvent}
    (h : ev ∈ (writeIfChanged fs p new dry
      (fun _ _ => LogEvent.wouldUpdateTop g k)).logs) : nameLogOk ev := by
  rcases @wic_logs fs p new dry (fun _ _ => LogEvent.wouldUpdateTop g k)
    with hl | ⟨o, hl⟩
  · rw [hl] at h
    cases h
  · rw [hl] at h
    simp only [List.mem_singleton] at h
    rw [h]
    trivial

theorem wic_top_no_removed {fs : FS} {p : FPath} {new : String} {dry : Bool}
    {g : FPath} {k : Nat} {q : FPath}
    (h : LogEvent.removedStale q ∈ (writeIfChanged fs p new dry
      (fun _ _ => LogEvent.wouldUpdateTop g k)).logs) : False := by
  rcases @wic_logs fs p new dry (fun _ _ => LogEvent.wouldUpdateTop g k)
    with hl | ⟨o, hl⟩
  · rw [hl] at h
    cases h
  · rw [hl] at h
    simp at h

theorem runMain_logs_nameOk (m : Json) (cj cmj : Option Json) (fs : FS)
    (now : String) (dry : Bool) :
    ∀ ev ∈ (runMain m cj cmj fs now dry).logs, nameLogOk ev := by
  intro ev h
  rcases List.mem_append.mp h with h1 | h1
  · rcases List.mem_append.mp h1 with h2 | h2
    · rcases List.mem_append.mp h2 with h3 | h3
      · exact processAll_logs_nameOk h3
      · exact tailLog_nameOk h3
    · exact wic_top_nameOk h2
  · exact wic_top_nameOk h1

theorem runMain_removed_logs {m : Json} {cj cmj : Option Json} {fs : FS}
    {now : String} {dry : Bool} {q : FPath}
    (h : LogEvent.removedStale q ∈ (runMain m cj cmj fs now dry).logs) :
    q ∈ (runMain m cj cmj fs now dry).deletes := by
  rcases List.mem_append.mp h with h1 | h1
  · rcases List.mem_append.mp h1 with h2 | h2
    · rcases List.mem_append.mp h2 with h3 | h3
      · exact List.mem_append.mpr
          (.inl (List.mem_append.mpr (.inl (processAll_removed_logs h3))))
      · exact absurd h3 (fun hx => tailLog_no_removed hx)
    · exact absurd h2 (fun hx => wic_top_no_removed hx)
  · exact absurd h1 (fun hx => wic_top_no_removed hx)

theorem runMain_dry_frame (m : Json) (cj cmj : Option Json) (fs : FS)
    (now : String) :
    (runMain m cj cmj fs now true).fs.files = fs.files ∧
    (runMain m cj cmj fs now true).writes = [] ∧
    (runMain m cj cmj fs now true).deletes = [] := by
  refine ⟨?_, ?_, ?_⟩
  · show (writeIfChanged (writeIfChanged
        (processAll { fs with baseDir := true } (mainData m cj cmj)
          (parse_combined_map cj) (parse_c_mds_map cmj) true).1.fs
        (.top "mds_summary.json") _ true _).fs
        (.top "aaguids.json") _ true _).fs.files = fs.files
    rw [wic_dry_fs, wic_dry_fs]
    exact (@processAll_dry (parse_combined_map cj) (parse_c_mds_map cmj)
      (mainData m cj cmj) { fs with baseDir := true }).1
  · show (processAll { fs with baseDir := true } (mainData m cj cmj)
        (parse_combined_map cj) (parse_c_mds_map cmj) true).1.writes ++
      (writeIfChanged _ (.top "mds_summary.json") _ true _).writes ++
      (writeIfChanged _ (.top "aaguids.json") _ true _).writes = []
    rw [wic_dry_writes, wic_dry_writes,
      (@processAll_dry (parse_combined_map cj) (parse_c_mds_map cmj)
        (mainData m cj cmj) { fs with baseDir := true }).2.1]
    rfl
  · show (processAll { fs with baseDir := true } (mainData m cj cmj)
        (parse_combined_map cj) (parse_c_mds_map cmj) true).1.deletes ++
      (writeIfChanged _ (.top "mds_summary.json") _ true _).deletes ++
      (writeIfChanged _ (.top "aaguids.json") _ true _).deletes = []
    rw [wic_deletes, wic_deletes,
      (@processAll_dry (parse_combined_map cj) (parse_c_mds_map cmj)
        (mainData m cj cmj) { fs with baseDir := true }).2.2]
    rfl

theorem runMain_dirs (m : Json) (cj cmj : Option Json) (fs : FS) (now : String)
    (dry : Bool) :
    ∀ a ∈ (mainData m cj cmj).map Prod.fst,
      a ∈ (runMain m cj cmj fs now dry).fs.dirs := by
  intro a ha
  show a ∈ (writeIfChanged (writeIfChanged
      (processAll { fs with baseDir := true } (mainData m cj cmj)
        (parse_combined_map cj) (parse_c_mds_map cmj) dry).1.fs
      (.top "mds_summary.json") _ dry _).fs
      (.top "aaguids.json") _ dry _).fs.dirs
  rw [wic_dirs, wic_dirs]
  exact processAll_dirs_iff.mpr (.inr ha)

theorem runMain_baseDir_dry (m : Json) (cj cmj : Option Json) (fs : FS)
    (now : String) :
    (runMain m cj cmj fs now true).fs.baseDir = true := by
  show (writeIfChanged (writeIfChanged
      (create_aaguid_directories fs (mainData m cj cmj)
        (parse_combined_map cj) (parse_c_mds_map cmj) true).1.fs
      (.top "mds_summary.json") _ true _).fs
      (.top "aaguids.json") _ true _).fs.baseDir = true
  rw [wic_baseDir, wic_baseDir]
  exact cad_baseDir _ _ _ _ _

def fsC5 : FS := ⟨false, [], [(iconPath "aaaa", ⟨"stale", false, false⟩)]⟩

/-- Claim C5 as stated is false: a dry run still touches the filesystem by
creating directories (the base `mkdir` and every per-AAGUID `mkdir` run
unconditionally), and an intended deletion is neither performed nor logged:
the run on a tree holding a stale `icon.txt` creates the directory, leaves
the stale file in place, and emits no removal log line at all. -/
theorem claim_C5_counterexample :
    (runMain mdsFixture none none fsC5 "T" true).fs.dirs = ["aaaa"] ∧
    (runMain mdsFixture none none fsC5 "T" true).fs.baseDir = true ∧
    plookup (runMain mdsFixture none none fsC5 "T" true).fs.files
      (iconPath "aaaa") = some ⟨"stale", false, false⟩ ∧
    (runMain mdsFixture none none fsC5 "T" true).logs.all
      (fun ev => match ev with
        | .removedStale _ => false
        | _ => true) = true :=
  ⟨rfl, rfl, rfl, rfl⟩

/-- C5 (amended): a dry run performs every content comparison but changes no
file: the file table is untouched and the write and delete lists are empty;
every logged name change carries before/after previews capped at 140
characters; however, directory creation still happens (the base directory
flag is set and every AAGUID in the run's data gains a directory), and
intended deletions are neither performed nor logged (no stale-removal event
ever appears in a dry run's log). -/
theorem claim_C5 (m : Json) (cj cmj : Option Json) (fs : FS) (now : String) :
    (runMain m cj cmj fs now true).fs.files = fs.files ∧
    (runMain m cj cmj fs now true).writes = [] ∧
    (runMain m cj cmj fs now true).deletes = [] ∧
    (∀ ev ∈ (runMain m cj cmj fs now true).logs, nameLogOk ev) ∧
    (∀ q : FPath,
      LogEvent.removedStale q ∉ (runMain m cj cmj fs now true).logs) ∧
    (runMain m cj cmj fs now true).fs.baseDir = true ∧
    (∀ a ∈ (mainData m cj cmj).map Prod.fst,
      a ∈ (runMain m cj cmj fs now true).fs.dirs) :=
  ⟨(runMain_dry_frame m cj cmj fs now).1,
   (runMain_dry_frame m cj cmj fs now).2.1,
   (runMain_dry_frame m cj cmj fs now).2.2,
   runMain_logs_nameOk m cj cmj fs now true,
   fun q h => absurd (runMain_removed_logs h)
     (by rw [(runMain_dry_frame m cj cmj fs now).2.2]; exact List.not_mem_nil q),
   runMain_baseDir_dry m cj cmj fs now,
   runMain_dirs m cj cmj fs now true⟩

/-- C5 witness: the concrete dry run over one AAGUID with a stale icon on
disk; all hypotheses discharged on concrete data, including the logged name
change and the directory membership. -/
theorem claim_C5_witness :
    (runMain mdsFixture none none fsC5 "T" true).writes = [] ∧
    (runMain mdsFixture none none fsC5 "T" true).deletes = [] ∧
    nameLogOk (LogEvent.wouldUpdateName (namePath "aaaa") 0 5 "None" "Key A") ∧
    LogEvent.removedStale (iconPath "aaaa") ∉
      (runMain mdsFixture none none fsC5 "T" true).logs ∧
    "aaaa" ∈ (runMain mdsFixture none none fsC5 "T" true).fs.dirs :=
  ⟨(claim_C5 mdsFixture none none fsC5 "T").2.1,
   (claim_C5 mdsFixture none none fsC5 "T").2.2.1,
   (claim_C5 mdsFixture none none fsC5 "T").2.2.2.1
     (LogEvent.wouldUpdateName (namePath "aaaa") 0 5 "None" "Key A")
     (by decide),
   (claim_C5 mdsFixture none none fsC5 "T").2.2.2.2.1 (iconPath "aaaa"),
   (claim_C5 mdsFixture none none fsC5 "T").2.2.2.2.2.2 "aaaa" (by decide)⟩

/-! ### C6: placeholder union and canonical AAGUID reconstruction -/

/-- A hexadecimal digit, as the claim's "32 hex characters" reads. -/
def isHexChar (c : Char) : Bool :=
  (48 ≤ c.toNat && c.toNat ≤ 57) || (97 ≤ c.toNat && c.toNat ≤ 102) ||
    (65 ≤ c.toNat && c.toNat ≤ 70)

def gKey : String := "gggggggggggggggggggggggggggggggg"

theorem hyphenate_toList (s : String) :
    (hyphenate s).toList =
      s.toList.take 8 ++ ['-'] ++ (s.toList.drop 8).take 4 ++ ['-'] ++
      (s.toList.drop 12).take 4 ++ ['-'] ++ (s.toList.drop 16).take 4 ++
      ['-'] ++ (s.toList.drop 20).take 12 := rfl

theorem list_split32 (l : List Char) :
    l.take 8 ++ (l.drop 8).take 4 ++ (l.drop 12).take 4 ++ (l.drop 16).take 4 ++
      l.drop 20 = l := by
  have h8 : (l.drop 8).drop 4 = l.drop 12 := by rw [List.drop_drop]
  have h12 : (l.drop 12).drop 4 = l.drop 16 := by rw [List.drop_drop]
  have h16 : (l.drop 16).drop 4 = l.drop 20 := by rw [List.drop_drop]
  calc l.take 8 ++ (l.drop 8).take 4 ++ (l.drop 12).take 4 ++
        (l.drop 16).take 4 ++ l.drop 20
      = l.take 8 ++ ((l.drop 8).take 4 ++ ((l.drop 12).take 4 ++
          ((l.drop 16).take 4 ++ l.drop 20))) := by
        simp [List.append_assoc]
    _ = l := by
        rw [← h16, List.take_append_drop, ← h12, List.take_append_drop,
          ← h8, List.take_append_drop, List.take_append_drop]

theorem hyphenate_split (s : String) (h : s.toList.length = 32) :
    ∃ p1 p2 p3 p4 p5 : List Char,
      s.toList = p1 ++ p2 ++ p3 ++ p4 ++ p5 ∧
      p1.length = 8 ∧ p2.length = 4 ∧ p3.length = 4 ∧ p4.length = 4 ∧
      p5.length = 12 ∧
      (hyphenate s).toList =
        p1 ++ ['-'] ++ p2 ++ ['-'] ++ p3 ++ ['-'] ++ p4 ++ ['-'] ++ p5 := by
  refine ⟨s.toList.take 8, (s.toList.drop 8).take 4, (s.toList.drop 12).take 4,
    (s.toList.drop 16).take 4, s.toList.drop 20,
    (list_split32 s.toList).symm, ?_, ?_, ?_, ?_, ?_, ?_⟩
  · rw [List.length_take]
    omega
  · rw [List.length_take, List.length_drop]
    omega
  · rw [List.length_take, List.length_drop]
    omega
  · rw [List.length_take, List.length_drop]
    omega
  · rw [List.length_drop]
    omega
  · rw [hyphenate_toList]
    have hlen : (s.toList.drop 20).length ≤ 12 := by
      rw [List.length_drop]
      omega
    rw [List.take_of_length_le hlen]

theorem ep_fold_shape (mdsKeys : List String) (nameOf : Json → Json) :
    ∀ (l : List (String × Json)) (acc0 : List (String × List MetaItem)),
      ∀ kv ∈ l.foldl (fun acc ckentry =>
          if ckentry.1 ∈ mdsKeys then acc
          else
            if akey acc (canonicalFor ckentry.1 ckentry.2) then acc
            else acc ++ [(canonicalFor ckentry.1 ckentry.2,
              [placeholderItem (canonicalFor ckentry.1 ckentry.2)
                ckentry.2 nameOf])]) acc0,
        kv ∈ acc0 ∨ ∃ ck entry, (ck, entry) ∈ l ∧ ck ∉ mdsKeys ∧
          kv.1 = canonicalFor ck entry ∧
          kv.2 = [placeholderItem (canonicalFor ck entry) entry nameOf] := by
  intro l
  induction l with
  | nil => intro acc0 kv h; exact .inl h
  | cons x rest ih =>
      intro acc0 kv h
      rcases ih _ kv h with hin | ⟨ck, entry, hm, hk, h1, h2⟩
      · have hin2 : kv ∈ (if x.1 ∈ mdsKeys then acc0
            else
              if akey acc0 (canonicalFor x.1 x.2) then acc0
              else acc0 ++ [(canonicalFor x.1 x.2,
                [placeholderItem (canonicalFor x.1 x.2) x.2 nameOf])]) := hin
        clear hin
        rename' hin2 => hin
        by_cases hks : x.1 ∈ mdsKeys
        · rw [if_pos hks] at hin
          exact .inl hin
        · rw [if_neg hks] at hin
          by_cases hak : akey acc0 (canonicalFor x.1 x.2) = true
          · rw [if_pos hak] at hin
            exact .inl hin
          · rw [if_neg hak] at hin
            rcases List.mem_append.mp hin with h3 | h3
            · exact .inl h3
            · simp only [List.mem_singleton] at h3
              refine .inr ⟨x.1, x.2, List.mem_cons_self _ _, hks, ?_, ?_⟩
              · rw [h3]
              · rw [h3]
      · exact .inr ⟨ck, entry, List.mem_cons_of_mem _ hm, hk, h1, h2⟩

theorem ensure_placeholders_shape (acc : List (String × List MetaItem))
    (mdsKeys : List String) (em : Option (List (String × Json)))
    (nameOf : Json → Json) :
    ∀ kv ∈ ensure_placeholders acc mdsKeys em nameOf,
      kv ∈ acc ∨ ∃ ck entry, (ck, entry) ∈ em.getD [] ∧ ck ∉ mdsKeys ∧
        kv.1 = canonicalFor ck entry ∧
        kv.2 = [placeholderItem (canonicalFor ck entry) entry nameOf] := by
  rcases em with _ | m
  · intro kv h
    exact .inl h
  · intro kv h
    by_cases hE : m.isEmpty
    · rw [show ensure_placeholders acc mdsKeys (some m) nameOf =
          if m.isEmpty then acc else m.foldl _ acc from rfl, if_pos hE] at h
      exact .inl h
    · rw [show ensure_placeholders acc mdsKeys (some m) nameOf =
          if m.isEmpty then acc
          else m.foldl (fun acc2 ckentry =>
            if ckentry.1 ∈ mdsKeys then acc2
            else
              if akey acc2 (canonicalFor ckentry.1 ckentry.2) then acc2
              else acc2 ++ [(canonicalFor ckentry.1 ckentry.2,
                [placeholderItem (canonicalFor ckentry.1 ckentry.2)
                  ckentry.2 nameOf])]) acc from rfl, if_neg hE] at h
      exact ep_fold_shape mdsKeys nameOf m acc kv h

theorem runMain_materializes (m : Json) (cj cmj : Option Json) (fs : FS)
    (now : String) :
    ∀ kv ∈ mainData m cj cmj,
      kv.1 ∈ (runMain m cj cmj fs now false).fs.dirs ∧
      (runMain m cj cmj fs now false).fs.readOld (namePath kv.1) =
        some (choose_name_for_aaguid kv.1 kv.2
          (parse_combined_map cj) (parse_c_mds_map cmj)) := by
  intro kv hkv
  have h := runMain_ensures m cj cmj fs now kv hkv
  exact ⟨h.1, paEnsures_name h⟩

/-- C6 counterexample: the hyphenation branch tests only `len(s) == 32`,
never that the characters are hexadecimal, so a 32-character non-hex key is
hyphenated rather than used unmodified as the claim's wording requires. -/
theorem claim_C6_counterexample :
    canonicalFor gKey (Json.obj []) =
      "gggggggg-gggg-gggg-gggg-gggggggggggg" ∧
    gKey.toList.all isHexChar = false ∧
    "gggggggg-gggg-gggg-gggg-gggggggggggg" ≠ gKey :=
  ⟨rfl, by decide, by decide⟩

/-- C6 (amended): an AAGUID present only in a secondary source gets a
placeholder list of exactly one synthetic item with an empty metadata
statement (anything the placeholder union adds beyond the MDS-extracted
data has that shape), a directory and a `name.txt` are still materialized
for every AAGUID of the run's data; the canonical AAGUID string comes from
the `aaguid`/`AAGUID`/`id`/`idHex` chain when truthy, else any key of
length exactly 32 — hex or not — is hyphenated into the 8-4-4-4-12 shape,
else the raw key is used unmodified. -/
theorem claim_C6 :
    (∀ (ck : String) (entry : Json), (identifierOf entry).truthy = true →
        canonicalFor ck entry = pyStr (identifierOf entry)) ∧
    (∀ (ck : String) (entry : Json), (identifierOf entry).truthy = false →
        ck.toList.length = 32 → canonicalFor ck entry = hyphenate ck) ∧
    (∀ (ck : String) (entry : Json), (identifierOf entry).truthy = false →
        ck.toList.length ≠ 32 → canonicalFor ck entry = ck) ∧
    (∀ s : String, s.toList.length = 32 →
      ∃ p1 p2 p3 p4 p5 : List Char,
        s.toList = p1 ++ p2 ++ p3 ++ p4 ++ p5 ∧
        p1.length = 8 ∧ p2.length = 4 ∧ p3.length = 4 ∧ p4.length = 4 ∧
        p5.length = 12 ∧
        (hyphenate s).toList =
          p1 ++ ['-'] ++ p2 ++ ['-'] ++ p3 ++ ['-'] ++ p4 ++ ['-'] ++ p5) ∧
    (∀ (acc : List (String × List MetaItem)) (mdsKeys : List String)
        (em : Option (List (String × Json))) (nameOf : Json → Json),
      ∀ kv ∈ ensure_placeholders acc mdsKeys em nameOf,
        kv ∈ acc ∨ ∃ ck entry, (ck, entry) ∈ em.getD [] ∧ ck ∉ mdsKeys ∧
          kv.1 = canonicalFor ck entry ∧
          kv.2 = [placeholderItem (canonicalFor ck entry) entry nameOf]) ∧
    (∀ (m : Json) (cj cmj : Option Json) (fs : FS) (now : String),
      ∀ kv ∈ mainData m cj cmj,
        kv.1 ∈ (runMain m cj cmj fs now false).fs.dirs ∧
        (runMain m cj cmj fs now false).fs.readOld (namePath kv.1) =
          some (choose_name_for_aaguid kv.1 kv.2
            (parse_combined_map cj) (parse_c_mds_map cmj))) :=
  ⟨fun ck entry h => by simp [canonicalFor, h],
   fun ck entry h hl => by
     simp only [canonicalFor]
     rw [h]
     simp only [Bool.false_eq_true, if_false]
     rw [if_pos hl],
   fun ck entry h hl => by
     simp only [canonicalFor]
     rw [h]
     simp only [Bool.false_eq_true, if_false]
     rw [if_neg hl],
   hyphenate_split,
   ensure_placeholders_shape,
   runMain_materializes⟩

/-- C6 witness: the non-hex 32-character key is hyphenated, and the one
AAGUID of the fixture run gets its directory and `name.txt`. -/
theorem claim_C6_witness :
    canonicalFor gKey (Json.obj []) = hyphenate gKey ∧
    ("aaaa", [mdsFixtureItem]) ∈ mainData mdsFixture none none ∧
    "aaaa" ∈ (runMain mdsFixture none none {} "T" false).fs.dirs ∧
    (runMain mdsFixture none none {} "T" false).fs.readOld (namePath "aaaa") =
      some (choose_name_for_aaguid "aaaa" [mdsFixtureItem] none none) :=
  ⟨claim_C6.2.1 gKey (Json.obj []) rfl (by decide),
   by
     rw [show mainData mdsFixture none none = [("aaaa", [mdsFixtureItem])]
       from rfl]
     exact List.mem_cons_self _ _,
   (claim_C6.2.2.2.2.2 mdsFixture none none {} "T"
     ("aaaa", [mdsFixtureItem]) (by
       rw [show mainData mdsFixture none none = [("aaaa", [mdsFixtureItem])]
         from rfl]
       exact List.mem_cons_self _ _)).1,
   (claim_C6.2.2.2.2.2 mdsFixture none none {} "T"
     ("aaaa", [mdsFixtureItem]) (by
       rw [show mainData mdsFixture none none = [("aaaa", [mdsFixtureItem])]
         from rfl]
       exact List.mem_cons_self _ _)).2⟩

/-! ### C7: icon_light.txt / icon_dark.txt -/

/-- Python truthiness of the guarded lookup result: `if combined_entry:`. -/
def optTruthy : Option Json → Bool
  | some j => j.truthy
  | none => false

theorem fileStep_deletes_del {fs : FS} {a : String} {dry : Bool}
    {fd : String × FileDecision} {q : FPath}
    (h : q ∈ (fileStep a dry fs fd).deletes) :
    q = FPath.sub a fd.1 ∧ fd.2 = FileDecision.del := by
  rcases fd with ⟨f, d⟩
  cases d with
  | skip => cases h
  | del => exact ⟨die_deletes_sub h, rfl⟩
  | put s => simp [fileStep, wic_deletes] at h

theorem runSteps_deletes_del {a : String} {dry : Bool} {q : FPath} :
    ∀ {fds : List (String × FileDecision)} {fs : FS},
      q ∈ (runSteps a dry fs fds).deletes →
      ∃ fd ∈ fds, q = FPath.sub a fd.1 ∧ fd.2 = FileDecision.del := by
  intro fds
  induction fds with
  | nil => intro fs h; cases h
  | cons fd rest ih =>
      intro fs h
      rcases List.mem_append.mp h with h1 | h2
      · exact ⟨fd, List.mem_cons_self _ _, fileStep_deletes_del h1⟩
      · rcases ih h2 with ⟨e, he, hq, hs⟩
        exact ⟨e, List.mem_cons_of_mem _ he, hq, hs⟩

theorem runSteps_files_skip {a : String} {dry : Bool} {q : FPath} :
    ∀ {fds : List (String × FileDecision)} {fs : FS},
      (∀ fd ∈ fds, q = FPath.sub a fd.1 → fd.2 = FileDecision.skip) →
      plookup (runSteps a dry fs fds).fs.files q = plookup fs.files q := by
  intro fds
  induction fds with
  | nil => intro fs _; rfl
  | cons fd rest ih =>
      intro fs hall
      have h2 : plookup (runSteps a dry (fileStep a dry fs fd).fs rest).fs.files q
          = plookup (fileStep a dry fs fd).fs.files q :=
        ih (fun e he hq => hall e (List.mem_cons_of_mem _ he) hq)
      rw [show (runSteps a dry fs (fd :: rest)).fs
          = (runSteps a dry (fileStep a dry fs fd).fs rest).fs from rfl, h2]
      by_cases hq : q = FPath.sub a fd.1
      · have hskip := hall fd (List.mem_cons_self _ _) hq
        rcases fd with ⟨f, d⟩
        cases d with
        | skip => rfl
        | del => cases hskip
        | put s => cases hskip
      · exact fileStep_files_other hq

theorem pa_light_put {fs : FS} {a : String} {items : List MetaItem}
    {cm cmm : Option (List (String × Json))} {ce : Json}
    (hce : entryFor cm a = some ce) (htr : ce.truthy = true)
    (hil : (ce.get "icon_light").truthy = true) :
    (processAaguid fs a items cm cmm false).fs.readOld (iconLightPath a) =
      some (pyStr (ce.get "icon_light")) := by
  have hmem : ("icon_light.txt", FileDecision.put (pyStr (ce.get "icon_light")))
      ∈ decisionsFor a items cm cmm := by
    simp [decisionsFor, hce, htr, hil]
  exact (pa_post fs a items cm cmm).2 _ hmem

theorem pa_dark_put {fs : FS} {a : String} {items : List MetaItem}
    {cm cmm : Option (List (String × Json))} {ce : Json}
    (hce : entryFor cm a = some ce) (htr : ce.truthy = true)
    (hil : (ce.get "icon_dark").truthy = true) :
    (processAaguid fs a items cm cmm false).fs.readOld (iconDarkPath a) =
      some (pyStr (ce.get "icon_dark")) := by
  have hmem : ("icon_dark.txt", FileDecision.put (pyStr (ce.get "icon_dark")))
      ∈ decisionsFor a items cm cmm := by
    simp [decisionsFor, hce, htr, hil]
  exact (pa_post fs a items cm cmm).2 _ hmem

theorem pa_light_del {fs : FS} {a : String} {items : List MetaItem}
    {cm cmm : Option (List (String × Json))} {ce : Json}
    (hce : entryFor cm a = some ce) (htr : ce.truthy = true)
    (hil : (ce.get "icon_light").truthy = false) :
    iconLightPath a ∉ (processAaguid fs a items cm cmm false).writes ∧
    staleOk (processAaguid fs a items cm cmm false).fs (iconLightPath a) = true := by
  constructor
  · intro hw
    rcases runSteps_writes_put hw with ⟨fd, hfd, hq, s, hput⟩
    have hf : fd.1 = "icon_light.txt" := by
      injection hq with h1 h2
      exact h2.symm
    simp only [decisionsFor, List.mem_cons, List.not_mem_nil, or_false] at hfd
    rcases hfd with h1 | h1 | h1 | h1 | h1 | h1 <;> rw [h1] at hf hput <;>
      simp_all [hce, htr, hil]
  · have hmem : ("icon_light.txt", FileDecision.del) ∈ decisionsFor a items cm cmm := by
      simp [decisionsFor, hce, htr, hil]
    exact (pa_post fs a items cm cmm).2 _ hmem

theorem pa_dark_del {fs : FS} {a : String} {items : List MetaItem}
    {cm cmm : Option (List (String × Json))} {ce : Json}
    (hce : entryFor cm a = some ce) (htr : ce.truthy = true)
    (hil : (ce.get "icon_dark").truthy = false) :
    iconDarkPath a ∉ (processAaguid fs a items cm cmm false).writes ∧
    staleOk (processAaguid fs a items cm cmm false).fs (iconDarkPath a) = true := by
  constructor
  · intro hw
    rcases runSteps_writes_put hw with ⟨fd, hfd, hq, s, hput⟩
    have hf : fd.1 = "icon_dark.txt" := by
      injection hq with h1 h2
      exact h2.symm
    simp only [decisionsFor, List.mem_cons, List.not_mem_nil, or_false] at hfd
    rcases hfd with h1 | h1 | h1 | h1 | h1 | h1 <;> rw [h1] at hf hput <;>
      simp_all [hce, htr, hil]
  · have hmem : ("icon_dark.txt", FileDecision.del) ∈ decisionsFor a items cm cmm := by
      simp [decisionsFor, hce, htr, hil]
    exact (pa_post fs a items cm cmm).2 _ hmem

theorem pa_light_skip {fs : FS} {a : String} {items : List MetaItem}
    {cm cmm : Option (List (String × Json))}
    (hce : optTruthy (entryFor cm a) = false) :
    plookup (processAaguid fs a items cm cmm false).fs.files (iconLightPath a) =
      plookup fs.files (iconLightPath a) ∧
    iconLightPath a ∉ (processAaguid fs a items cm cmm false).writes ∧
    iconLightPath a ∉ (processAaguid fs a items cm cmm false).deletes := by
  refine ⟨?_, ?_, ?_⟩
  · show plookup (runSteps a false (fs.mkdirSub a)
        (decisionsFor a items cm cmm)).fs.files (iconLightPath a) = _
    rw [runSteps_files_skip, mkdirSub_files]
    intro fd hfd hq
    have hf : fd.1 = "icon_light.txt" := by
      injection hq with h1 h2
      exact h2.symm
    simp only [decisionsFor, List.mem_cons, List.not_mem_nil, or_false] at hfd
    rcases hce2 : entryFor cm a with _ | ce
    · rcases hfd with h1 | h1 | h1 | h1 | h1 | h1 <;> rw [h1] at hf ⊢ <;>
        simp_all [hce2]
    · have htr : ce.truthy = false := by simpa [optTruthy, hce2] using hce
      rcases hfd with h1 | h1 | h1 | h1 | h1 | h1 <;> rw [h1] at hf ⊢ <;>
        simp_all [hce2, htr]
  · intro hw
    rcases runSteps_writes_put hw with ⟨fd, hfd, hq, s, hput⟩
    have hf : fd.1 = "icon_light.txt" := by
      injection hq with h1 h2
      exact h2.symm
    simp only [decisionsFor, List.mem_cons, List.not_mem_nil, or_false] at hfd
    rcases hce2 : entryFor cm a with _ | ce
    · rcases hfd with h1 | h1 | h1 | h1 | h1 | h1 <;> rw [h1] at hf hput <;>
        simp_all [hce2]
    · have htr : ce.truthy = false := by simpa [optTruthy, hce2] using hce
      rcases hfd with h1 | h1 | h1 | h1 | h1 | h1 <;> rw [h1] at hf hput <;>
        simp_all [hce2, htr]
  · intro hw
    rcases runSteps_deletes_del hw with ⟨fd, hfd, hq, hdel⟩
    have hf : fd.1 = "icon_light.txt" := by
      injection hq with h1 h2
      exact h2.symm
    simp only [decisionsFor, List.mem_cons, List.not_mem_nil, or_false] at hfd
    rcases hce2 : entryFor cm a with _ | ce
    · rcases hfd with h1 | h1 | h1 | h1 | h1 | h1 <;> rw [h1] at hf hdel <;>
        simp_all [hce2]
    · have htr : ce.truthy = false := by simpa [optTruthy, hce2] using hce
      rcases hfd with h1 | h1 | h1 | h1 | h1 | h1 <;> rw [h1] at hf hdel <;>
        simp_all [hce2, htr]

theorem pa_dark_skip {fs : FS} {a : String} {items : List MetaItem}
    {cm cmm : Option (List (String × Json))}
    (hce : optTruthy (entryFor cm a) = false) :
    plookup (processAaguid fs a items cm cmm false).fs.files (iconDarkPath a) =
      plookup fs.files (iconDarkPath a) ∧
    iconDarkPath a ∉ (processAaguid fs a items cm cmm false).writes ∧
    iconDarkPath a ∉ (processAaguid fs a items cm cmm false).deletes := by
  refine ⟨?_, ?_, ?_⟩
  · show plookup (runSteps a false (fs.mkdirSub a)
        (decisionsFor a items cm cmm)).fs.files (iconDarkPath a) = _
    rw [runSteps_files_skip, mkdirSub_files]
    intro fd hfd hq
    have hf : fd.1 = "icon_dark.txt" := by
      injection hq with h1 h2
      exact h2.symm
    simp only [decisionsFor, List.mem_cons, List.not_mem_nil, or_false] at hfd
    rcases hce2 : entryFor cm a with _ | ce
    · rcases hfd with h1 | h1 | h1 | h1 | h1 | h1 <;> rw [h1] at hf ⊢ <;>
        simp_all [hce2]
    · have htr : ce.truthy = false := by simpa [optTruthy, hce2] using hce
      rcases hfd with h1 | h1 | h1 | h1 | h1 | h1 <;> rw [h1] at hf ⊢ <;>
        simp_all [hce2, htr]
  · intro hw
    rcases runSteps_writes_put hw with ⟨fd, hfd, hq, s, hput⟩
    have hf : fd.1 = "icon_dark.txt" := by
      injection hq with h1 h2
      exact h2.symm
    simp only [decisionsFor, List.mem_cons, List.not_mem_nil, or_false] at hfd
    rcases hce2 : entryFor cm a with _ | ce
    · rcases hfd with h1 | h1 | h1 | h1 | h1 | h1 <;> rw [h1] at hf hput <;>
        simp_all [hce2]
    · have htr : ce.truthy = false := by simpa [optTruthy, hce2] using hce
      rcases hfd with h1 | h1 | h1 | h1 | h1 | h1 <;> rw [h1] at hf hput <;>
        simp_all [hce2, htr]
  · intro hw
    rcases runSteps_deletes_del hw with ⟨fd, hfd, hq, hdel⟩
    have hf : fd.1 = "icon_dark.txt" := by
      injection hq with h1 h2
      exact h2.symm
    simp only [decisionsFor, List.mem_cons, List.not_mem_nil, or_false] at hfd
    rcases hce2 : entryFor cm a with _ | ce
    · rcases hfd with h1 | h1 | h1 | h1 | h1 | h1 <;> rw [h1] at hf hdel <;>
        simp_all [hce2]
    · have htr : ce.truthy = false := by simpa [optTruthy, hce2] using hce
      rcases hfd with h1 | h1 | h1 | h1 | h1 | h1 <;> rw [h1] at hf hdel <;>
        simp_all [hce2, htr]

def fsC7 : FS := ⟨true, ["aaaa"],
  [(iconLightPath "aaaa", ⟨"stale", false, false⟩)]⟩

def cjC7 : Option Json :=
  some (.obj [("aaaa", .obj [("icon_light", .str ""), ("icon_dark", .str "D")])])

/-- C7 counterexample: with no combined-map entry at all, a stale
`icon_light.txt` survives a full run untouched (the light/dark handling sits
inside `if combined_entry:`), refuting "each independently deleted whenever
its source field is absent — including when there is no combined-map entry";
and a *present* but empty `icon_light` field deletes the file rather than
writing it, refuting "written when that field is present". -/
theorem claim_C7_counterexample :
    (plookup (runMain mdsFixture none none fsC7 "T" false).fs.files
        (iconLightPath "aaaa") = some ⟨"stale", false, false⟩ ∧
     (runMain mdsFixture none none fsC7 "T" false).deletes = []) ∧
    (plookup (runMain mdsFixture cjC7 none fsC7 "T" false).fs.files
        (iconLightPath "aaaa") = none ∧
     iconLightPath "aaaa" ∈ (runMain mdsFixture cjC7 none fsC7 "T" false).deletes) :=
  ⟨⟨rfl, rfl⟩, ⟨rfl, by decide⟩⟩

/-- C7 (amended): when the combined-map entry exists and is truthy,
`icon_light.txt`/`icon_dark.txt` are each written from the `icon_light`/
`icon_dark` field when that field is truthy (the run ends with the file
holding the stringified field), and each is independently removed when its
field is absent or falsy (the file is not written and is gone afterwards
unless its unlink raised); but with no combined-map entry — or a falsy one —
neither file is touched at all: not written, not deleted, contents
unchanged. -/
theorem claim_C7 (a : String) (items : List MetaItem)
    (cm cmm : Option (List (String × Json))) (fs : FS) :
    (∀ ce : Json, entryFor cm a = some ce → ce.truthy = true →
      ((ce.get "icon_light").truthy = true →
        (processAaguid fs a items cm cmm false).fs.readOld (iconLightPath a) =
          some (pyStr (ce.get "icon_light"))) ∧
      ((ce.get "icon_light").truthy = false →
        iconLightPath a ∉ (processAaguid fs a items cm cmm false).writes ∧
        staleOk (processAaguid fs a items cm cmm false).fs (iconLightPath a)
          = true) ∧
      ((ce.get "icon_dark").truthy = true →
        (processAaguid fs a items cm cmm false).fs.readOld (iconDarkPath a) =
          some (pyStr (ce.get "icon_dark"))) ∧
      ((ce.get "icon_dark").truthy = false →
        iconDarkPath a ∉ (processAaguid fs a items cm cmm false).writes ∧
        staleOk (processAaguid fs a items cm cmm false).fs (iconDarkPath a)
          = true)) ∧
    (optTruthy (entryFor cm a) = false →
      (plookup (processAaguid fs a items cm cmm false).fs.files
          (iconLightPath a) = plookup fs.files (iconLightPath a) ∧
       iconLightPath a ∉ (processAaguid fs a items cm cmm false).writes ∧
       iconLightPath a ∉ (processAaguid fs a items cm cmm false).deletes) ∧
      (plookup (processAaguid fs a items cm cmm false).fs.files
          (iconDarkPath a) = plookup fs.files (iconDarkPath a) ∧
       iconDarkPath a ∉ (processAaguid fs a items cm cmm false).writes ∧
       iconDarkPath a ∉ (processAaguid fs a items cm cmm false).deletes)) :=
  ⟨fun ce hce htr =>
    ⟨fun hil => pa_light_put hce htr hil,
     fun hil => pa_light_del hce htr hil,
     fun hil => pa_dark_put hce htr hil,
     fun hil => pa_dark_del hce htr hil⟩,
   fun hce => ⟨pa_light_skip hce, pa_dark_skip hce⟩⟩

def cmC7 : Option (List (String × Json)) :=
  some [("aa", .obj [("icon_light", .str "L")])]

/-- C7 witness: a truthy `icon_light` ends up in the file, the absent
`icon_dark` leaves nothing behind, and with no combined map a stale
`icon_light.txt` is untouched. -/
theorem claim_C7_witness :
    (processAaguid {} "aa" [] cmC7 none false).fs.readOld (iconLightPath "aa") =
      some "L" ∧
    iconDarkPath "aa" ∉ (processAaguid {} "aa" [] cmC7 none false).writes ∧
    staleOk (processAaguid {} "aa" [] cmC7 none false).fs (iconDarkPath "aa")
      = true ∧
    plookup (processAaguid fsC7 "aaaa" [] none none false).fs.files
      (iconLightPath "aaaa") = plookup fsC7.files (iconLightPath "aaaa") :=
  ⟨((claim_C7 "aa" [] cmC7 none {}).1 (Json.obj [("icon_light", Json.str "L")])
      rfl rfl).1 rfl,
   (((claim_C7 "aa" [] cmC7 none {}).1 (Json.obj [("icon_light", Json.str "L")])
      rfl rfl).2.2.2 rfl).1,
   (((claim_C7 "aa" [] cmC7 none {}).1 (Json.obj [("icon_light", Json.str "L")])
      rfl rfl).2.2.2 rfl).2,
   ((claim_C7 "aaaa" [] none none fsC7).2 rfl).1.1⟩

/-! ### C8: caught errors and logging -/

def fsC8 : FS := ⟨true, ["aaaa"], [(iconPath "aaaa", ⟨"stale", false, true⟩)]⟩

/-- C8 counterexample: a failing unlink of a stale `icon.txt` is caught by
the bare `except: pass` — the run ends with the file still present, an empty
delete list, and not a single removal log line, so the caught error is
dropped without producing any log. -/
theorem claim_C8_counterexample :
    plookup (runMain mdsFixture none none fsC8 "T" false).fs.files
      (iconPath "aaaa") = some ⟨"stale", false, true⟩ ∧
    (runMain mdsFixture none none fsC8 "T" false).logs.all
      (fun ev => match ev with
        | .removedStale _ => false
        | _ => true) = true ∧
    (runMain mdsFixture none none fsC8 "T" false).deletes = [] :=
  ⟨rfl, rfl, rfl⟩

/-- C8 (amended): a file-IO error while deleting a stale file is caught and
ignored with no log line whatsoever (the cleanup is best-effort and fully
silent: state, log, write and delete lists are all unchanged); a file-IO
error while reading a file for a content comparison is likewise silently
treated as missing content; and a stale-removal log line appears only for a
deletion that actually happened. -/
theorem claim_C8 :
    (∀ (fs : FS) (p : FPath) (nd : FileNode) (dry : Bool),
      plookup fs.files p = some nd → nd.deleteFails = true →
      deleteIfExists fs p dry = ⟨fs, [], [], []⟩) ∧
    (∀ (fs : FS) (p : FPath) (nd : FileNode),
      plookup fs.files p = some nd → nd.readFails = true →
      fs.readOld p = none) ∧
    (∀ (m : Json) (cj cmj : Option Json) (fs : FS) (now : String) (dry : Bool)
        (q : FPath),
      LogEvent.removedStale q ∈ (runMain m cj cmj fs now dry).logs →
      q ∈ (runMain m cj cmj fs now dry).deletes) :=
  ⟨fun _ _ _ _ hl hdf => die_fail_silent hl hdf,
   fun fs p nd hl hrf => by simp [FS.readOld, hl, hrf],
   fun _ _ _ _ _ _ _ h => runMain_removed_logs h⟩

/-- C8 witness: the failing unlink is fully silent on concrete data, a
failing read yields missing content, and the one genuine removal log of the
fixture run corresponds to a real deletion. -/
theorem claim_C8_witness :
    deleteIfExists fsC8 (iconPath "aaaa") false = ⟨fsC8, [], [], []⟩ ∧
    FS.readOld ⟨true, [], [(iconPath "aa", ⟨"x", true, false⟩)]⟩
      (iconPath "aa") = none ∧
    iconLightPath "aaaa" ∈ (runMain mdsFixture cjC7 none fsC7 "T" false).deletes :=
  ⟨claim_C8.1 fsC8 (iconPath "aaaa") ⟨"stale", false, true⟩ false rfl rfl,
   claim_C8.2.1 ⟨true, [], [(iconPath "aa", ⟨"x", true, false⟩)]⟩
     (iconPath "aa") ⟨"x", true, false⟩ rfl rfl,
   claim_C8.2.2 mdsFixture cjC7 none fsC7 "T" false (iconLightPath "aaaa")
     (by decide)⟩

/-! ### C10: placeholder name falls back to the canonical AAGUID -/

theorem choose_placeholder_canonical {canonical : String} {item : MetaItem}
    {cm cmm : Option (List (String × Json))}
    (hname : item.name = canonical)
    (h1 : (match entryFor cm canonical with
           | some (.obj kvs) => (pyGet kvs "name").truthy
           | _ => false) = false)
    (h2 : friendly_name_from_entry (entryFor cmm canonical) = none ∨
          friendly_name_from_entry (entryFor cmm canonical) = some "")
    (hn : normStr canonical = canonical) :
    choose_name_for_aaguid canonical [item] cm cmm = canonical := by
  rw [choose_eq_specAmended]
  simp only [specChooseNameAmended, hname]
  have h2b : specFriendlyAmended (entryFor cmm canonical) = none ∨
      specFriendlyAmended (entryFor cmm canonical) = some "" := by
    rw [← friendly_eq_specAmended]
    exact h2
  rcases hce : entryFor cm canonical with _ | ce
  · simp only [hce]
    rcases h2b with h2b | h2b <;> simp [h2b, hn]
  · rcases ce with _ | b | n | t | xs | kvs
    · simp only [hce]
      rcases h2b with h2b | h2b <;> simp [h2b, hn]
    · simp only [hce]
      rcases h2b with h2b | h2b <;> simp [h2b, hn]
    · simp only [hce]
      rcases h2b with h2b | h2b <;> simp [h2b, hn]
    · simp only [hce]
      rcases h2b with h2b | h2b <;> simp [h2b, hn]
    · simp only [hce]
      rcases h2b with h2b | h2b <;> simp [h2b, hn]
    · have ht : (pyGet kvs "name").truthy = false := by
        simpa [hce] using h1
      simp only [hce, ht]
      rcases h2b with h2b | h2b <;> simp [h2b, hn]

theorem pa_placeholder_name {fs : FS} {canonical : String} {item : MetaItem}
    {cm cmm : Option (List (String × Json))}
    (hname : item.name = canonical)
    (h1 : (match entryFor cm canonical with
           | some (.obj kvs) => (pyGet kvs "name").truthy
           | _ => false) = false)
    (h2 : friendly_name_from_entry (entryFor cmm canonical) = none ∨
          friendly_name_from_entry (entryFor cmm canonical) = some "")
    (hn : normStr canonical = canonical) :
    (processAaguid fs canonical [item] cm cmm false).fs.readOld
      (namePath canonical) = some canonical := by
  have h := paEnsures_name (pa_post fs canonical [item] cm cmm)
  rw [show FPath.sub canonical "name.txt" = namePath canonical from rfl] at h
  rw [h, choose_placeholder_canonical hname h1 h2 hn]

/-- C10 (confirmed): an AAGUID synthesized only from an external source,
whose entry yields no resolvable name, takes the canonical AAGUID string
itself as the placeholder item's name — never the literal `"Unknown"` — and
`name.txt` (and, through the same resolver, `aaguids.json`) receives exactly
that canonical string. -/
theorem claim_C10 :
    (∀ (canonical : String) (entry : Json) (nameOf : Json → Json),
      normalize_single_line (nameOf entry) = none →
      (placeholderItem canonical entry nameOf).name = canonical) ∧
    (∀ (canonical : String) (entry : Json) (nameOf : Json → Json) (s : String),
      normalize_single_line (nameOf entry) = some s → s = "" →
      (placeholderItem canonical entry nameOf).name = canonical) ∧
    (∀ (canonical : String) (item : MetaItem)
        (cm cmm : Option (List (String × Json))),
      item.name = canonical →
      (match entryFor cm canonical with
       | some (.obj kvs) => (pyGet kvs "name").truthy
       | _ => false) = false →
      (friendly_name_from_entry (entryFor cmm canonical) = none ∨
       friendly_name_from_entry (entryFor cmm canonical) = some "") →
      normStr canonical = canonical →
      choose_name_for_aaguid canonical [item] cm cmm = canonical) ∧
    (∀ (fs : FS) (canonical : String) (item : MetaItem)
        (cm cmm : Option (List (String × Json))),
      item.name = canonical →
      (match entryFor cm canonical with
       | some (.obj kvs) => (pyGet kvs "name").truthy
       | _ => false) = false →
      (friendly_name_from_entry (entryFor cmm canonical) = none ∨
       friendly_name_from_entry (entryFor cmm canonical) = some "") →
      normStr canonical = canonical →
      (processAaguid fs canonical [item] cm cmm false).fs.readOld
        (namePath canonical) = some canonical) :=
  ⟨fun canonical entry nameOf h => by simp [placeholderItem, h],
   fun canonical entry nameOf s h hs => by simp [placeholderItem, h, hs],
   fun _ _ _ _ hname h1 h2 hn => choose_placeholder_canonical hname h1 h2 hn,
   fun _ _ _ _ _ hname h1 h2 hn => pa_placeholder_name hname h1 h2 hn⟩

/-- C10 witness: a placeholder whose external entry resolves no name takes
the canonical string, and the concrete run writes exactly that string to
`name.txt`. -/
theorem claim_C10_witness :
    (placeholderItem "ab" (Json.obj []) cMdsNameOf).name = "ab" ∧
    (placeholderItem "ab" (Json.obj []) (fun _ => Json.str " ")).name = "ab" ∧
    choose_name_for_aaguid "ab" [⟨"ab", Json.null, Json.obj [], Json.obj []⟩]
      none none = "ab" ∧
    (processAaguid {} "ab" [⟨"ab", Json.null, Json.obj [], Json.obj []⟩]
      none none false).fs.readOld (namePath "ab") = some "ab" :=
  ⟨claim_C10.1 "ab" (Json.obj []) cMdsNameOf rfl,
   claim_C10.2.1 "ab" (Json.obj []) (fun _ => Json.str " ") "" rfl rfl,
   claim_C10.2.2.1 "ab" ⟨"ab", Json.null, Json.obj [], Json.obj []⟩ none none
     rfl rfl (.inl rfl) rfl,
   claim_C10.2.2.2 {} "ab" ⟨"ab", Json.null, Json.obj [], Json.obj []⟩ none none
     rfl rfl (.inl rfl) rfl⟩
